import Mathlib

/-!
AVL tree of libbst (`src/avl.c`): a shallow embedding of the AVL implementation
of libbst and a verification of its search-tree and balance invariants, its
return values, its rebalancing steps and its height bound.

The embedding:

* A `Bst` record of the C code holds two child pointers `c[0]`, `c[1]` and a
  `balance`.  A pointer to a `Bst` is embedded as a value of the inductive type
  `Bst α`: `Bst.nil` is the `nil` pointer, `Bst.node c0 n balance c1` is a
  pointer to the record `n` (its address, hence also the caller's data that
  surrounds it and that the comparator reads) together with the current
  contents of the three fields.  `α` is the type of node identities.
* Every dereference of a pointer is a function into `Option`; dereferencing
  `nil` (or indexing `c` outside `0..1`) yields `none`, and `none` propagates
  to the result of the operation.
* `/` on C integers truncates (`Int.tdiv`), `^` is bitwise exclusive or
  (`Int.xor`).
* Functions that write through `Bst **p` and `Bst **oldp` return the new value
  of `*p` and of `*oldp` next to the C return value.
* The record `k` handed to `avlinsert` is not linked into the tree at a place
  other than the one where the search for `k` ends (the caller contract of the
  library), so writing its fields changes no other node; a record is linked at
  most once, which the inductive type expresses by construction.
-/

namespace Avl

/-- A pointer to a `Bst` record: `nil`, or the record `n` with the current
values of `c[0]`, `balance` and `c[1]`. -/
inductive Bst (α : Type) where
  | nil : Bst α
  | node (c0 : Bst α) (n : α) (balance : Int) (c1 : Bst α) : Bst α
  deriving Repr, DecidableEq

/-- The tree record `Bsttree`: the comparator and the root pointer (the three
operation pointers are fixed to the functions below by `bstcreateavl`). -/
structure Bsttree (α : Type) where
  cmp : α → α → Int
  root : Bst α

/-- The tree built by `bstcreateavl(cmp)`, when the allocation succeeds. -/
def bstcreateavl {α : Type} (cmp : α → α → Int) : Bsttree α :=
  { cmp := cmp, root := Bst.nil }

/-- Read `s->c[i]`. -/
def getc {α : Type} : Bst α → Int → Option (Bst α)
  | Bst.nil, _ => none
  | Bst.node l _ _ r, i => if i = 0 then some l else if i = 1 then some r else none

/-- Write `s->c[i] = x`; the result is `s` with the field updated. -/
def setc {α : Type} : Bst α → Int → Bst α → Option (Bst α)
  | Bst.nil, _, _ => none
  | Bst.node l n b r, i, x =>
    if i = 0 then some (Bst.node x n b r)
    else if i = 1 then some (Bst.node l n b x)
    else none

/-- Read `s->balance`. -/
def getbalance {α : Type} : Bst α → Option Int
  | Bst.nil => none
  | Bst.node _ _ b _ => some b

/-- Write `s->balance = v`. -/
def setbalance {α : Type} : Bst α → Int → Option (Bst α)
  | Bst.nil, _ => none
  | Bst.node l n _ r, v => some (Bst.node l n v r)

/-- The function `rotate(a, s)`. -/
def rotate {α : Type} (a : Int) (s : Bst α) : Option (Bst α) := do
  let c := Int.tdiv (a + 1) 2
  let r ← getc s c
  let x ← getc r (Int.xor c 1)
  let s ← setc s c x
  setc r (Int.xor c 1) s

/-- The function `singlerot(a, s)`. -/
def singlerot {α : Type} (a : Int) (s : Bst α) : Option (Bst α) := do
  let s ← setbalance s 0
  rotate a s

/-- The function `doublerot(a, s)`.  After the two rotations the records `s`
and `r` are the children `p->c[c^1]` and `p->c[c]` of the returned `p`; their
balances are written there. -/
def doublerot {α : Type} (a : Int) (s : Bst α) : Option (Bst α) := do
  let c := Int.tdiv (a + 1) 2
  let r ← getc s c
  let r ← rotate (-a) r
  let s ← setc s c r
  let p ← rotate a s
  let pb ← getbalance p
  let s ← getc p (Int.xor c 1)
  let r ← getc p c
  let sb := if pb = a then -a else 0
  let rb := if pb = a then 0 else if pb = -a then a else 0
  let s ← setbalance s sb
  let r ← setbalance r rb
  let p ← setc p (Int.xor c 1) s
  setc p c r

/-- The function `insertfix(a, t)`: the argument is `*t`, the result is the
return value and the new `*t`. -/
def insertfix {α : Type} (a : Int) (s : Bst α) : Option (Int × Bst α) := do
  let b ← getbalance s
  if b = 0 then
    let s ← setbalance s a
    pure (1, s)
  else if b = -a then
    let s ← setbalance s 0
    pure (0, s)
  else
    let h ← getc s (Int.tdiv (a + 1) 2)
    let hb ← getbalance h
    let s ← if hb = a then singlerot a s else doublerot a s
    let s ← setbalance s 0
    pure (0, s)

/-- The normalisation `c > 0 ? 1 : c < 0 ? -1 : 0`. -/
def sign3 (c : Int) : Int :=
  if c > 0 then 1 else if c < 0 then -1 else 0

/-- The function `insert(cmp, p, k, oldp)`: the arguments are `*p`, `k` and
`*oldp`; the result is the return value, the new `*p` and the new `*oldp`.
The child slot `q->c + (c+1)/2` is `c[0]` or `c[1]`. -/
def insert {α : Type} (cmp : α → α → Int) :
    Bst α → α → Option α → Option (Int × Bst α × Option α)
  | Bst.nil, k, old => some (1, Bst.node Bst.nil k 0 Bst.nil, old)
  | Bst.node l q b r, k, old =>
    let c := sign3 (cmp k q)
    if c = 0 then
      some (0, Bst.node l k b r, some q)
    else if Int.tdiv (c + 1) 2 = 0 then
      match insert cmp l k old with
      | none => none
      | some (fix, l', old') =>
        if fix ≠ 0 then
          match insertfix c (Bst.node l' q b r) with
          | none => none
          | some (f, t) => some (f, t, old')
        else some (0, Bst.node l' q b r, old')
    else
      match insert cmp r k old with
      | none => none
      | some (fix, r', old') =>
        if fix ≠ 0 then
          match insertfix c (Bst.node l q b r') with
          | none => none
          | some (f, t) => some (f, t, old')
        else some (0, Bst.node l q b r', old')

/-- The function `avlinsert(t, k)`: the tree after the call and the returned
pointer (as the identity of the node it points to). -/
def avlinsert {α : Type} (t : Bsttree α) (k : α) : Option (Bsttree α × Option α) :=
  match insert t.cmp t.root k none with
  | none => none
  | some (_, root, old) => some ({ t with root := root }, old)

/-- The function `avllookup(t, k)`, as a recursion on the pointer `h`. -/
def lookup {α : Type} (cmp : α → α → Int) : Bst α → α → Option α
  | Bst.nil, _ => none
  | Bst.node l h _ r, k =>
    let c := cmp k h
    if c < 0 then lookup cmp l k
    else if c > 0 then lookup cmp r k
    else some h

/-- The function `avllookup(t, k)`. -/
def avllookup {α : Type} (t : Bsttree α) (k : α) : Option α :=
  lookup t.cmp t.root k

/-- The function `deletefix(a, t)`: the argument is `*t`, the result is the
return value and the new `*t`. -/
def deletefix {α : Type} (a : Int) (s : Bst α) : Option (Int × Bst α) := do
  let b ← getbalance s
  if b = 0 then
    let s ← setbalance s a
    pure (0, s)
  else if b = -a then
    let s ← setbalance s 0
    pure (1, s)
  else
    let h ← getc s (Int.tdiv (a + 1) 2)
    let hb ← getbalance h
    if hb = 0 then
      let s ← rotate a s
      let s ← setbalance s (-a)
      pure (0, s)
    else
      let h ← getc s (Int.tdiv (a + 1) 2)
      let hb ← getbalance h
      let s ← if hb = a then singlerot a s
        else if hb = -a then doublerot a s
        else pure s
      let s ← setbalance s 0
      pure (1, s)

/-- The function `deletemin(p, oldp)`: the argument is `*p`; the result is the
return value, the new `*p` and the node stored in `*oldp`. -/
def deletemin {α : Type} : Bst α → Option (Int × Bst α × α)
  | Bst.nil => none
  | Bst.node Bst.nil q _ r => some (1, r, q)
  | Bst.node (Bst.node ll ln lb lr) q b r =>
    match deletemin (Bst.node ll ln lb lr) with
    | none => none
    | some (fix, l', e) =>
      if fix ≠ 0 then
        match deletefix 1 (Bst.node l' q b r) with
        | none => none
        | some (f, t) => some (f, t, e)
      else some (0, Bst.node l' q b r, e)

/-- The function `delete(cmp, p, k, oldp)`: the arguments are `*p`, `k` and
`*oldp`; the result is the return value, the new `*p` and the new `*oldp`.
On a match with a right child, `*e = *q` gives the extracted minimum `e` the
children (the right one already updated by `deletemin`) and balance of `q`. -/
def delete {α : Type} (cmp : α → α → Int) :
    Bst α → α → Option α → Option (Int × Bst α × Option α)
  | Bst.nil, _, old => some (0, Bst.nil, old)
  | Bst.node l q b r, k, old =>
    let c := sign3 (cmp k q)
    if c = 0 then
      match r with
      | Bst.nil => some (1, l, some q)
      | Bst.node rl rn rb rr =>
        match deletemin (Bst.node rl rn rb rr) with
        | none => none
        | some (fix, r', e) =>
          if fix ≠ 0 then
            match deletefix (-1) (Bst.node l e b r') with
            | none => none
            | some (f, t) => some (f, t, some q)
          else some (0, Bst.node l e b r', some q)
    else if Int.tdiv (c + 1) 2 = 0 then
      match delete cmp l k old with
      | none => none
      | some (fix, l', old') =>
        if fix ≠ 0 then
          match deletefix (-c) (Bst.node l' q b r) with
          | none => none
          | some (f, t) => some (f, t, old')
        else some (0, Bst.node l' q b r, old')
    else
      match delete cmp r k old with
      | none => none
      | some (fix, r', old') =>
        if fix ≠ 0 then
          match deletefix (-c) (Bst.node l q b r') with
          | none => none
          | some (f, t) => some (f, t, old')
        else some (0, Bst.node l q b r', old')

/-- The function `avldelete(t, k)`: the tree after the call and the returned
pointer. -/
def avldelete {α : Type} (t : Bsttree α) (k : α) : Option (Bsttree α × Option α) :=
  match t.root with
  | Bst.nil => some (t, none)
  | Bst.node l q b r =>
    match delete t.cmp (Bst.node l q b r) k none with
    | none => none
    | some (_, root, old) => some ({ t with root := root }, old)

/-! ## Specification vocabulary -/

/-- In-order traversal: the nodes reachable from a pointer, left to right. -/
def toList {α : Type} : Bst α → List α
  | Bst.nil => []
  | Bst.node l n _ r => toList l ++ n :: toList r

/-- Height of a tree: `0` for `nil`, `1` for a single node. -/
def height {α : Type} : Bst α → Nat
  | Bst.nil => 0
  | Bst.node l _ _ r => max (height l) (height r) + 1

/-- The balance invariant: at every node the stored balance is
`height(c[1]) - height(c[0])` and lies in `{-1, 0, 1}`. -/
def Balanced {α : Type} : Bst α → Prop
  | Bst.nil => True
  | Bst.node l _ b r =>
    Balanced l ∧ Balanced r ∧ b = (height r : Int) - (height l : Int) ∧
      (b = -1 ∨ b = 0 ∨ b = 1)

/-- The search-tree invariant: the in-order traversal is strictly ascending
under `cmp`. -/
def Ordered {α : Type} (cmp : α → α → Int) (t : Bst α) : Prop :=
  (toList t).Pairwise (fun x y => cmp x y < 0)

/-- A comparator that is a total order on the nodes (distinct nodes may compare
equal): reflexive-zero, antisymmetric in sign, transitive. -/
structure TotalOrder {α : Type} (cmp : α → α → Int) : Prop where
  refl : ∀ a, cmp a a = 0
  antisymm : ∀ a b, cmp a b < 0 ↔ 0 < cmp b a
  trans : ∀ a b c, cmp a b ≤ 0 → cmp b c ≤ 0 → cmp a c ≤ 0

/-- The numeric comparator on integer keys. -/
def cmpInt (a b : Int) : Int := a - b

/-- Balance stored at the root of a tree (`0` for `nil`). -/
def rootbal {α : Type} : Bst α → Int
  | Bst.nil => 0
  | Bst.node _ _ b _ => b

/-- No node on the search path of `k` compares equal to `k`. -/
def NoMatchOnPath {α : Type} (cmp : α → α → Int) : Bst α → α → Prop
  | Bst.nil, _ => True
  | Bst.node l q _ r, k =>
    cmp k q ≠ 0 ∧ (cmp k q < 0 → NoMatchOnPath cmp l k) ∧ (0 < cmp k q → NoMatchOnPath cmp r k)

/-- A tree of integer keys under the numeric comparator. -/
def intTree (root : Bst Int) : Bsttree Int := { cmp := cmpInt, root := root }

/-- A single node with no children. -/
def leaf (n : Int) : Bst Int := Bst.node Bst.nil n 0 Bst.nil

/-- The tree with root 20 and the leaves 10 and 30. -/
def tree3 : Bst Int := Bst.node (leaf 10) 20 0 (leaf 30)

/-- The tree with root 20, left leaf 10 and right child 30 over the leaves 25 and 40. -/
def tree5 : Bst Int := Bst.node (leaf 10) 20 1 (Bst.node (leaf 25) 30 0 (leaf 40))

/-- A comparator on records that carry an integer key and a tag: it reads the
key only, so distinct records can compare equal. -/
def cmpKey (a b : Int × Nat) : Int := a.1 - b.1

/-- The tree with the records of keys 10, 20, 30, all with tag 0. -/
def keyTree3 : Bst (Int × Nat) :=
  Bst.node (Bst.node Bst.nil (10, 0) 0 Bst.nil) (20, 0) 0 (Bst.node Bst.nil (30, 0) 0 Bst.nil)

/-! ## Instrumented insert and sequences of operations -/

/-- The four branches of `insertfix(a, t)`: balance `0` (set to `a`, return 1),
balance `-a` (set to `0`, return 0), and the two rotating branches. -/
inductive FixBranch where
  | grow : FixBranch
  | absorb : FixBranch
  | single : FixBranch
  | double : FixBranch
  deriving DecidableEq, Repr

/-- The branch that `insertfix(a, t)` takes on `*t = s`, read off the same
tests as `insertfix`. -/
def insertfixBranch {α : Type} (a : Int) (s : Bst α) : Option FixBranch := do
  let b ← getbalance s
  if b = 0 then pure FixBranch.grow
  else if b = -a then pure FixBranch.absorb
  else
    let h ← getc s (Int.tdiv (a + 1) 2)
    let hb ← getbalance h
    if hb = a then pure FixBranch.single else pure FixBranch.double

/-- The function `insert(cmp, p, k, oldp)` together with the list of the
branches taken by the calls of `insertfix` it makes, in the order of the calls
(deepest ancestor first). -/
def insertT {α : Type} (cmp : α → α → Int) :
    Bst α → α → Option α → Option ((Int × Bst α × Option α) × List FixBranch)
  | Bst.nil, k, old => some ((1, Bst.node Bst.nil k 0 Bst.nil, old), [])
  | Bst.node l q b r, k, old =>
    let c := sign3 (cmp k q)
    if c = 0 then
      some ((0, Bst.node l k b r, some q), [])
    else if Int.tdiv (c + 1) 2 = 0 then
      match insertT cmp l k old with
      | none => none
      | some ((fix, l', old'), tr) =>
        if fix ≠ 0 then
          match insertfix c (Bst.node l' q b r), insertfixBranch c (Bst.node l' q b r) with
          | some (f, t), some e => some ((f, t, old'), tr ++ [e])
          | _, _ => none
        else some ((0, Bst.node l' q b r, old'), tr)
    else
      match insertT cmp r k old with
      | none => none
      | some ((fix, r', old'), tr) =>
        if fix ≠ 0 then
          match insertfix c (Bst.node l q b r'), insertfixBranch c (Bst.node l q b r') with
          | some (f, t), some e => some ((f, t, old'), tr ++ [e])
          | _, _ => none
        else some ((0, Bst.node l q b r', old'), tr)

/-- Calls of `avlinsert` with the nodes of a list, one after another: the final
tree, the pointers returned and the `insertfix` branches taken by each call. -/
def insertSeq {α : Type} (t : Bsttree α) :
    List α → Option (Bsttree α × List (Option α) × List (List FixBranch))
  | [] => some (t, [], [])
  | k :: ks =>
    match insertT t.cmp t.root k none with
    | none => none
    | some ((_, root, old), tr) =>
      match insertSeq { t with root := root } ks with
      | none => none
      | some (t', olds, trs) => some (t', old :: olds, tr :: trs)

/-- A call of one of the two mutating entry points. -/
inductive Op (α : Type) where
  | ins : α → Op α
  | del : α → Op α

/-- A sequence of `avlinsert` and `avldelete` calls on a tree. -/
def runOps {α : Type} (t : Bsttree α) : List (Op α) → Option (Bsttree α)
  | [] => some t
  | Op.ins k :: ops =>
    match avlinsert t k with
    | none => none
    | some (t', _) => runOps t' ops
  | Op.del k :: ops =>
    match avldelete t k with
    | none => none
    | some (t', _) => runOps t' ops

/-- The shape of a tree with its balance fields, the node identities erased. -/
def skeleton {α : Type} : Bst α → Bst Unit
  | Bst.nil => Bst.nil
  | Bst.node l _ b r => Bst.node (skeleton l) () b (skeleton r)

/-- The displacement rule in the words of the specification: the tree that is
identical to `t` except that `k` stands where the resident found on the search
path of `k` stood, with the children and the balance of that resident. -/
def displace {α : Type} (cmp : α → α → Int) : Bst α → α → Bst α
  | Bst.nil, _ => Bst.nil
  | Bst.node l q b r, k =>
    if cmp k q < 0 then Bst.node (displace cmp l k) q b r
    else if 0 < cmp k q then Bst.node l q b (displace cmp r k)
    else Bst.node l k b r

/-! # Verification -/

variable {α : Type}

/-! ## Unfolding the rebalancing functions at the two directions -/

theorem xor_one_one : Int.xor 1 1 = 0 := by decide

theorem xor_zero_one : Int.xor 0 1 = 1 := by decide

theorem insertfix_nil (a : Int) : insertfix a (Bst.nil : Bst α) = none := rfl

theorem deletefix_nil (a : Int) : deletefix a (Bst.nil : Bst α) = none := rfl

theorem insertfix_pos (l : Bst α) (n : α) (b : Int) (r : Bst α) :
    insertfix 1 (Bst.node l n b r) = (show Option (Int × Bst α) from
      if b = 0 then some (1, Bst.node l n 1 r)
      else if b = -1 then some (0, Bst.node l n 0 r)
      else match r with
        | Bst.nil => none
        | Bst.node rl rn rb rr =>
          if rb = 1 then some (0, Bst.node (Bst.node l n 0 rl) rn 0 rr)
          else match rl with
            | Bst.nil => none
            | Bst.node rll rln rlb rlr =>
              some (0, Bst.node (Bst.node l n (if rlb = 1 then -1 else 0) rll) rln 0
                (Bst.node rlr rn (if rlb = 1 then 0 else if rlb = -1 then 1 else 0) rr))) := by
  by_cases h0 : b = 0
  · simp [insertfix, getbalance, setbalance, h0]
  by_cases h1 : b = -1
  · simp [insertfix, getbalance, setbalance, h1]
  cases r with
  | nil => simp [insertfix, getbalance, getc, h0, h1]
  | node rl rn rb rr =>
    by_cases h2 : rb = 1
    · simp [insertfix, getbalance, getc, h0, h1, h2, singlerot, setbalance, rotate, setc,
        xor_one_one, xor_zero_one]
    · cases rl with
      | nil => simp [insertfix, getbalance, getc, h0, h1, h2, doublerot, rotate]
      | node rll rln rlb rlr =>
        simp [insertfix, getbalance, getc, h0, h1, h2, doublerot, setbalance, rotate, setc,
          xor_one_one, xor_zero_one]

theorem insertfix_neg (l : Bst α) (n : α) (b : Int) (r : Bst α) :
    insertfix (-1) (Bst.node l n b r) = (show Option (Int × Bst α) from
      if b = 0 then some (1, Bst.node l n (-1) r)
      else if b = 1 then some (0, Bst.node l n 0 r)
      else match l with
        | Bst.nil => none
        | Bst.node ll ln lb lr =>
          if lb = -1 then some (0, Bst.node ll ln 0 (Bst.node lr n 0 r))
          else match lr with
            | Bst.nil => none
            | Bst.node lrl lrn lrb lrr =>
              some (0, Bst.node
                (Bst.node ll ln (if lrb = -1 then 0 else if lrb = 1 then -1 else 0) lrl) lrn 0
                (Bst.node lrr n (if lrb = -1 then 1 else 0) r))) := by
  by_cases h0 : b = 0
  · simp [insertfix, getbalance, setbalance, h0]
  by_cases h1 : b = 1
  · simp [insertfix, getbalance, setbalance, h1]
  cases l with
  | nil => simp [insertfix, getbalance, getc, h0, h1]
  | node ll ln lb lr =>
    by_cases h2 : lb = -1
    · simp [insertfix, getbalance, getc, h0, h1, h2, singlerot, setbalance, rotate, setc,
        xor_one_one, xor_zero_one]
    · cases lr with
      | nil => simp [insertfix, getbalance, getc, h0, h1, h2, doublerot, rotate, xor_zero_one]
      | node lrl lrn lrb lrr =>
        simp [insertfix, getbalance, getc, h0, h1, h2, doublerot, setbalance, rotate, setc,
          xor_one_one, xor_zero_one]

theorem deletefix_pos (l : Bst α) (n : α) (b : Int) (r : Bst α) :
    deletefix 1 (Bst.node l n b r) = (show Option (Int × Bst α) from
      if b = 0 then some (0, Bst.node l n 1 r)
      else if b = -1 then some (1, Bst.node l n 0 r)
      else match r with
        | Bst.nil => none
        | Bst.node rl rn rb rr =>
          if rb = 0 then some (0, Bst.node (Bst.node l n b rl) rn (-1) rr)
          else if rb = 1 then some (1, Bst.node (Bst.node l n 0 rl) rn 0 rr)
          else if rb = -1 then
            match rl with
            | Bst.nil => none
            | Bst.node rll rln rlb rlr =>
              some (1, Bst.node (Bst.node l n (if rlb = 1 then -1 else 0) rll) rln 0
                (Bst.node rlr rn (if rlb = 1 then 0 else if rlb = -1 then 1 else 0) rr))
          else some (1, Bst.node l n 0 (Bst.node rl rn rb rr))) := by
  by_cases h0 : b = 0
  · simp [deletefix, getbalance, setbalance, h0]
  by_cases h1 : b = -1
  · simp [deletefix, getbalance, setbalance, h1]
  cases r with
  | nil => simp [deletefix, getbalance, getc, h0, h1]
  | node rl rn rb rr =>
    by_cases h2 : rb = 0
    · simp [deletefix, getbalance, getc, h0, h1, h2, setbalance, rotate, setc,
        xor_one_one, xor_zero_one]
    by_cases h3 : rb = 1
    · simp [deletefix, getbalance, getc, h0, h1, h3, singlerot, setbalance, rotate, setc,
        xor_one_one, xor_zero_one]
    by_cases h4 : rb = -1
    · cases rl with
      | nil => simp [deletefix, getbalance, getc, h0, h1, h4, doublerot, rotate]
      | node rll rln rlb rlr =>
        simp [deletefix, getbalance, getc, h0, h1, h4, doublerot, setbalance, rotate, setc,
          xor_one_one, xor_zero_one]
    · simp [deletefix, getbalance, getc, h0, h1, h2, h3, h4, setbalance]

theorem deletefix_neg (l : Bst α) (n : α) (b : Int) (r : Bst α) :
    deletefix (-1) (Bst.node l n b r) = (show Option (Int × Bst α) from
      if b = 0 then some (0, Bst.node l n (-1) r)
      else if b = 1 then some (1, Bst.node l n 0 r)
      else match l with
        | Bst.nil => none
        | Bst.node ll ln lb lr =>
          if lb = 0 then some (0, Bst.node ll ln 1 (Bst.node lr n b r))
          else if lb = -1 then some (1, Bst.node ll ln 0 (Bst.node lr n 0 r))
          else if lb = 1 then
            match lr with
            | Bst.nil => none
            | Bst.node lrl lrn lrb lrr =>
              some (1, Bst.node
                (Bst.node ll ln (if lrb = -1 then 0 else if lrb = 1 then -1 else 0) lrl) lrn 0
                (Bst.node lrr n (if lrb = -1 then 1 else 0) r))
          else some (1, Bst.node (Bst.node ll ln lb lr) n 0 r)) := by
  by_cases h0 : b = 0
  · simp [deletefix, getbalance, setbalance, h0]
  by_cases h1 : b = 1
  · simp [deletefix, getbalance, setbalance, h1]
  cases l with
  | nil => simp [deletefix, getbalance, getc, h0, h1]
  | node ll ln lb lr =>
    by_cases h2 : lb = 0
    · simp [deletefix, getbalance, getc, h0, h1, h2, setbalance, rotate, setc,
        xor_one_one, xor_zero_one]
    by_cases h3 : lb = -1
    · simp [deletefix, getbalance, getc, h0, h1, h3, singlerot, setbalance, rotate, setc,
        xor_one_one, xor_zero_one]
    by_cases h4 : lb = 1
    · cases lr with
      | nil => simp [deletefix, getbalance, getc, h0, h1, h4, doublerot, rotate, xor_zero_one]
      | node lrl lrn lrb lrr =>
        simp [deletefix, getbalance, getc, h0, h1, h4, doublerot, setbalance, rotate, setc,
          xor_one_one, xor_zero_one]
    · simp [deletefix, getbalance, getc, h0, h1, h2, h3, h4, setbalance]

theorem sign3_cases (c : Int) :
    (0 < c ∧ sign3 c = 1) ∨ (c < 0 ∧ sign3 c = -1) ∨ (c = 0 ∧ sign3 c = 0) := by
  unfold sign3
  rcases lt_trichotomy c 0 with h | h | h
  · right; left
    exact ⟨h, by simp [h, not_lt.mpr h.le]⟩
  · right; right
    simp [h]
  · left
    exact ⟨h, by simp [h]⟩

theorem insert_eq (cmp : α → α → Int) (l : Bst α) (q : α) (b : Int) (r : Bst α) (k : α)
    (old : Option α) (h : cmp k q = 0) :
    insert cmp (Bst.node l q b r) k old = some (0, Bst.node l k b r, some q) := by
  simp [insert, sign3, h]

theorem insert_lt (cmp : α → α → Int) (l : Bst α) (q : α) (b : Int) (r : Bst α) (k : α)
    (old : Option α) (h : cmp k q < 0) :
    insert cmp (Bst.node l q b r) k old =
      match insert cmp l k old with
      | none => none
      | some (fix, l', old') =>
        if fix ≠ 0 then
          match insertfix (-1) (Bst.node l' q b r) with
          | none => none
          | some (f, t) => some (f, t, old')
        else some (0, Bst.node l' q b r, old') := by
  simp [insert, sign3, h, not_lt.mpr h.le]

theorem insert_gt (cmp : α → α → Int) (l : Bst α) (q : α) (b : Int) (r : Bst α) (k : α)
    (old : Option α) (h : 0 < cmp k q) :
    insert cmp (Bst.node l q b r) k old =
      match insert cmp r k old with
      | none => none
      | some (fix, r', old') =>
        if fix ≠ 0 then
          match insertfix 1 (Bst.node l q b r') with
          | none => none
          | some (f, t) => some (f, t, old')
        else some (0, Bst.node l q b r', old') := by
  simp [insert, sign3, h]

/-! ## The rebalancing steps keep the in-order traversal -/

theorem insertfix_toList (a : Int) (ha : a = 1 ∨ a = -1) (s : Bst α) (f : Int) (s' : Bst α)
    (h : insertfix a s = some (f, s')) : toList s' = toList s := by
  rcases ha with rfl | rfl
  · cases s with
    | nil => simp [insertfix_nil] at h
    | node l n b r =>
      rw [insertfix_pos] at h
      split_ifs at h with h0 h1
      · simp at h; obtain ⟨-, rfl⟩ := h; simp [toList]
      · simp at h; obtain ⟨-, rfl⟩ := h; simp [toList]
      · cases r with
        | nil => simp at h
        | node rl rn rb rr =>
          simp only at h
          split_ifs at h with h2
          · simp at h; obtain ⟨-, rfl⟩ := h; simp [toList]
          · cases rl with
            | nil => simp at h
            | node rll rln rlb rlr =>
              simp at h; obtain ⟨-, rfl⟩ := h; simp [toList]
  · cases s with
    | nil => simp [insertfix_nil] at h
    | node l n b r =>
      rw [insertfix_neg] at h
      split_ifs at h with h0 h1
      · simp at h; obtain ⟨-, rfl⟩ := h; simp [toList]
      · simp at h; obtain ⟨-, rfl⟩ := h; simp [toList]
      · cases l with
        | nil => simp at h
        | node ll ln lb lr =>
          simp only at h
          split_ifs at h with h2
          · simp at h; obtain ⟨-, rfl⟩ := h; simp [toList]
          · cases lr with
            | nil => simp at h
            | node lrl lrn lrb lrr =>
              simp at h; obtain ⟨-, rfl⟩ := h; simp [toList]

theorem deletefix_toList (a : Int) (ha : a = 1 ∨ a = -1) (s : Bst α) (f : Int) (s' : Bst α)
    (h : deletefix a s = some (f, s')) : toList s' = toList s := by
  rcases ha with rfl | rfl
  · cases s with
    | nil => simp [deletefix_nil] at h
    | node l n b r =>
      rw [deletefix_pos] at h
      split_ifs at h with h0 h1
      · simp at h; obtain ⟨-, rfl⟩ := h; simp [toList]
      · simp at h; obtain ⟨-, rfl⟩ := h; simp [toList]
      · cases r with
        | nil => simp at h
        | node rl rn rb rr =>
          simp only at h
          split_ifs at h with h2 h3 h4
          · simp at h; obtain ⟨-, rfl⟩ := h; simp [toList]
          · simp at h; obtain ⟨-, rfl⟩ := h; simp [toList]
          · cases rl with
            | nil => simp at h
            | node rll rln rlb rlr =>
              simp at h; obtain ⟨-, rfl⟩ := h; simp [toList]
          · simp at h; obtain ⟨-, rfl⟩ := h; simp [toList]
  · cases s with
    | nil => simp [deletefix_nil] at h
    | node l n b r =>
      rw [deletefix_neg] at h
      split_ifs at h with h0 h1
      · simp at h; obtain ⟨-, rfl⟩ := h; simp [toList]
      · simp at h; obtain ⟨-, rfl⟩ := h; simp [toList]
      · cases l with
        | nil => simp at h
        | node ll ln lb lr =>
          simp only at h
          split_ifs at h with h2 h3 h4
          · simp at h; obtain ⟨-, rfl⟩ := h; simp [toList]
          · simp at h; obtain ⟨-, rfl⟩ := h; simp [toList]
          · cases lr with
            | nil => simp at h
            | node lrl lrn lrb lrr =>
              simp at h; obtain ⟨-, rfl⟩ := h; simp [toList]
          · simp at h; obtain ⟨-, rfl⟩ := h; simp [toList]

/-! ## The rebalancing steps restore the balance invariant -/

theorem insertfix_pos_balanced (l : Bst α) (n : α) (b : Int) (r' : Bst α) (h0 : Nat)
    (hl : Balanced l) (hr : Balanced r') (hh : height r' = h0 + 1)
    (hb : b = (h0 : Int) - (height l : Int)) (hb3 : b = -1 ∨ b = 0 ∨ b = 1)
    (hnz : height r' = 1 ∨ rootbal r' ≠ 0) :
    ∃ f s', insertfix 1 (Bst.node l n b r') = some (f, s') ∧ Balanced s' ∧
      ((f = 0 ∧ height s' = max (height l) h0 + 1) ∨
       (f = 1 ∧ height s' = max (height l) h0 + 2 ∧ rootbal s' ≠ 0)) := by
  rw [insertfix_pos]
  split_ifs with h1 h2
  · refine ⟨1, _, rfl, ?_, Or.inr ⟨rfl, ?_, ?_⟩⟩
    · simp only [Balanced]; refine ⟨hl, hr, ?_, ?_⟩ <;> first | omega | simp
    · simp only [height]; omega
    · simp [rootbal]
  · refine ⟨0, _, rfl, ?_, Or.inl ⟨rfl, ?_⟩⟩
    · simp only [Balanced]; refine ⟨hl, hr, ?_, ?_⟩ <;> first | omega | simp
    · simp only [height]; omega
  · cases r' with
    | nil => simp [height] at hh
    | node rl rn rb rr =>
      simp only [Balanced, height, rootbal] at hr hh hnz
      obtain ⟨hrl, hrr, hrb, hrb3⟩ := hr
      simp only
      split_ifs with h3
      · refine ⟨0, _, rfl, ?_, Or.inl ⟨rfl, ?_⟩⟩
        · simp only [Balanced, height]
          refine ⟨⟨hl, hrl, ?_, ?_⟩, hrr, ?_, ?_⟩ <;> first | omega | simp
        · simp only [height]; omega
      · cases rl with
        | nil => simp only [height] at hrb hh; omega
        | node rll rln rlb rlr =>
          simp only [Balanced, height] at hrl hh hrb
          obtain ⟨hrll, hrlr, hrlb, hrlb3⟩ := hrl
          refine ⟨0, _, rfl, ?_, Or.inl ⟨rfl, ?_⟩⟩
          · simp only [Balanced, height]
            refine ⟨⟨hl, hrll, ?_, ?_⟩, ⟨hrlr, hrr, ?_, ?_⟩, ?_, ?_⟩ <;>
              (try split_ifs) <;> first | omega | simp
          · simp only [height]; omega

theorem insertfix_neg_balanced (l' : Bst α) (n : α) (b : Int) (r : Bst α) (h0 : Nat)
    (hl : Balanced l') (hr : Balanced r) (hh : height l' = h0 + 1)
    (hb : b = (height r : Int) - (h0 : Int)) (hb3 : b = -1 ∨ b = 0 ∨ b = 1)
    (hnz : height l' = 1 ∨ rootbal l' ≠ 0) :
    ∃ f s', insertfix (-1) (Bst.node l' n b r) = some (f, s') ∧ Balanced s' ∧
      ((f = 0 ∧ height s' = max h0 (height r) + 1) ∨
       (f = 1 ∧ height s' = max h0 (height r) + 2 ∧ rootbal s' ≠ 0)) := by
  rw [insertfix_neg]
  split_ifs with h1 h2
  · refine ⟨1, _, rfl, ?_, Or.inr ⟨rfl, ?_, ?_⟩⟩
    · simp only [Balanced]; refine ⟨hl, hr, ?_, ?_⟩ <;> first | omega | simp
    · simp only [height]; omega
    · simp [rootbal]
  · refine ⟨0, _, rfl, ?_, Or.inl ⟨rfl, ?_⟩⟩
    · simp only [Balanced]; refine ⟨hl, hr, ?_, ?_⟩ <;> first | omega | simp
    · simp only [height]; omega
  · cases l' with
    | nil => simp [height] at hh
    | node ll ln lb lr =>
      simp only [Balanced, height, rootbal] at hl hh hnz
      obtain ⟨hll, hlr, hlb, hlb3⟩ := hl
      simp only
      split_ifs with h3
      · refine ⟨0, _, rfl, ?_, Or.inl ⟨rfl, ?_⟩⟩
        · simp only [Balanced, height]
          refine ⟨hll, ⟨hlr, hr, ?_, ?_⟩, ?_, ?_⟩ <;> first | omega | simp
        · simp only [height]; omega
      · cases lr with
        | nil => simp only [height] at hlb hh; omega
        | node lrl lrn lrb lrr =>
          simp only [Balanced, height] at hlr hh hlb
          obtain ⟨hlrl, hlrr, hlrb, hlrb3⟩ := hlr
          refine ⟨0, _, rfl, ?_, Or.inl ⟨rfl, ?_⟩⟩
          · simp only [Balanced, height]
            refine ⟨⟨hll, hlrl, ?_, ?_⟩, ⟨hlrr, hr, ?_, ?_⟩, ?_, ?_⟩ <;>
              (try split_ifs) <;> first | omega | simp
          · simp only [height]; omega

theorem deletefix_pos_balanced (l' : Bst α) (n : α) (b : Int) (r : Bst α) (h0 : Nat)
    (hl : Balanced l') (hr : Balanced r) (hh : height l' + 1 = h0)
    (hb : b = (height r : Int) - (h0 : Int)) (hb3 : b = -1 ∨ b = 0 ∨ b = 1) :
    ∃ f s', deletefix 1 (Bst.node l' n b r) = some (f, s') ∧ Balanced s' ∧
      ((f = 0 ∧ height s' = max h0 (height r) + 1) ∨
       (f = 1 ∧ height s' + 1 = max h0 (height r) + 1)) := by
  rw [deletefix_pos]
  split_ifs with h1 h2
  · refine ⟨0, _, rfl, ?_, Or.inl ⟨rfl, ?_⟩⟩
    · simp only [Balanced]; refine ⟨hl, hr, ?_, ?_⟩ <;> first | omega | simp
    · simp only [height]; omega
  · refine ⟨1, _, rfl, ?_, Or.inr ⟨rfl, ?_⟩⟩
    · simp only [Balanced]; refine ⟨hl, hr, ?_, ?_⟩ <;> first | omega | simp
    · simp only [height]; omega
  · cases r with
    | nil => simp only [height] at hb; omega
    | node rl rn rb rr =>
      simp only [Balanced, height] at hr hb
      obtain ⟨hrl, hrr, hrb, hrb3⟩ := hr
      simp only
      split_ifs with h3 h4 h5
      · refine ⟨0, _, rfl, ?_, Or.inl ⟨rfl, ?_⟩⟩
        · simp only [Balanced, height]
          refine ⟨⟨hl, hrl, ?_, ?_⟩, hrr, ?_, ?_⟩ <;> first | omega | simp
        · simp only [height]; omega
      · refine ⟨1, _, rfl, ?_, Or.inr ⟨rfl, ?_⟩⟩
        · simp only [Balanced, height]
          refine ⟨⟨hl, hrl, ?_, ?_⟩, hrr, ?_, ?_⟩ <;> first | omega | simp
        · simp only [height]; omega
      · cases rl with
        | nil => simp only [height] at hrb; omega
        | node rll rln rlb rlr =>
          simp only [Balanced, height] at hrl hb hrb
          obtain ⟨hrll, hrlr, hrlb, hrlb3⟩ := hrl
          refine ⟨1, _, rfl, ?_, Or.inr ⟨rfl, ?_⟩⟩
          · simp only [Balanced, height]
            refine ⟨⟨hl, hrll, ?_, ?_⟩, ⟨hrlr, hrr, ?_, ?_⟩, ?_, ?_⟩ <;>
              (try split_ifs) <;> first | omega | simp
          · simp only [height]; omega
      · omega

theorem deletefix_neg_balanced (l : Bst α) (n : α) (b : Int) (r' : Bst α) (h0 : Nat)
    (hl : Balanced l) (hr : Balanced r') (hh : height r' + 1 = h0)
    (hb : b = (h0 : Int) - (height l : Int)) (hb3 : b = -1 ∨ b = 0 ∨ b = 1) :
    ∃ f s', deletefix (-1) (Bst.node l n b r') = some (f, s') ∧ Balanced s' ∧
      ((f = 0 ∧ height s' = max (height l) h0 + 1) ∨
       (f = 1 ∧ height s' + 1 = max (height l) h0 + 1)) := by
  rw [deletefix_neg]
  split_ifs with h1 h2
  · refine ⟨0, _, rfl, ?_, Or.inl ⟨rfl, ?_⟩⟩
    · simp only [Balanced]; refine ⟨hl, hr, ?_, ?_⟩ <;> first | omega | simp
    · simp only [height]; omega
  · refine ⟨1, _, rfl, ?_, Or.inr ⟨rfl, ?_⟩⟩
    · simp only [Balanced]; refine ⟨hl, hr, ?_, ?_⟩ <;> first | omega | simp
    · simp only [height]; omega
  · cases l with
    | nil => simp only [height] at hb; omega
    | node ll ln lb lr =>
      simp only [Balanced, height] at hl hb
      obtain ⟨hll, hlr, hlb, hlb3⟩ := hl
      simp only
      split_ifs with h3 h4 h5
      · refine ⟨0, _, rfl, ?_, Or.inl ⟨rfl, ?_⟩⟩
        · simp only [Balanced, height]
          refine ⟨hll, ⟨hlr, hr, ?_, ?_⟩, ?_, ?_⟩ <;> first | omega | simp
        · simp only [height]; omega
      · refine ⟨1, _, rfl, ?_, Or.inr ⟨rfl, ?_⟩⟩
        · simp only [Balanced, height]
          refine ⟨hll, ⟨hlr, hr, ?_, ?_⟩, ?_, ?_⟩ <;> first | omega | simp
        · simp only [height]; omega
      · cases lr with
        | nil => simp only [height] at hlb; omega
        | node lrl lrn lrb lrr =>
          simp only [Balanced, height] at hlr hb hlb
          obtain ⟨hlrl, hlrr, hlrb, hlrb3⟩ := hlr
          refine ⟨1, _, rfl, ?_, Or.inr ⟨rfl, ?_⟩⟩
          · simp only [Balanced, height]
            refine ⟨⟨hll, hlrl, ?_, ?_⟩, ⟨hlrr, hr, ?_, ?_⟩, ?_, ?_⟩ <;>
              (try split_ifs) <;> first | omega | simp
          · simp only [height]; omega
      · omega

/-! ## Insert and delete on a balanced tree -/

theorem insert_balanced (cmp : α → α → Int) (k : α) (t : Bst α) (old : Option α)
    (ht : Balanced t) :
    ∃ fix t' old', insert cmp t k old = some (fix, t', old') ∧ Balanced t' ∧
      ((fix = 0 ∧ height t' = height t) ∨
       (fix = 1 ∧ height t' = height t + 1 ∧ (height t' = 1 ∨ rootbal t' ≠ 0))) := by
  induction t generalizing old with
  | nil =>
    refine ⟨1, Bst.node Bst.nil k 0 Bst.nil, old, rfl, ?_, Or.inr ⟨rfl, ?_, Or.inl ?_⟩⟩
    · simp [Balanced, height]
    · simp [height]
    · simp [height]
  | node l q b r ihl ihr =>
    obtain ⟨hl, hr, hb, hb3⟩ := ht
    rcases lt_trichotomy (cmp k q) 0 with hc | hc | hc
    · rw [insert_lt cmp l q b r k old hc]
      obtain ⟨fix, l', old', he, hbl, hcase⟩ := ihl old hl
      rw [he]
      rcases hcase with ⟨rfl, hh⟩ | ⟨rfl, hh, hnz⟩
      · refine ⟨0, Bst.node l' q b r, old', by simp, ⟨hbl, hr, by omega, hb3⟩, Or.inl ⟨rfl, ?_⟩⟩
        simp only [height]; omega
      · obtain ⟨f, s', hf, hbs, hres⟩ :=
          insertfix_neg_balanced l' q b r (height l) hbl hr hh hb hb3 hnz
        refine ⟨f, s', old', by simp [hf], hbs, ?_⟩
        simp only [height]
        rcases hres with ⟨rfl, h1⟩ | ⟨rfl, h1, h2⟩
        · exact Or.inl ⟨rfl, by omega⟩
        · exact Or.inr ⟨rfl, by omega, Or.inr h2⟩
    · rw [insert_eq cmp l q b r k old hc]
      exact ⟨0, Bst.node l k b r, some q, rfl, ⟨hl, hr, hb, hb3⟩, Or.inl ⟨rfl, by simp [height]⟩⟩
    · rw [insert_gt cmp l q b r k old hc]
      obtain ⟨fix, r', old', he, hbr, hcase⟩ := ihr old hr
      rw [he]
      rcases hcase with ⟨rfl, hh⟩ | ⟨rfl, hh, hnz⟩
      · refine ⟨0, Bst.node l q b r', old', by simp, ⟨hl, hbr, by omega, hb3⟩, Or.inl ⟨rfl, ?_⟩⟩
        simp only [height]; omega
      · obtain ⟨f, s', hf, hbs, hres⟩ :=
          insertfix_pos_balanced l q b r' (height r) hl hbr hh hb hb3 hnz
        refine ⟨f, s', old', by simp [hf], hbs, ?_⟩
        simp only [height]
        rcases hres with ⟨rfl, h1⟩ | ⟨rfl, h1, h2⟩
        · exact Or.inl ⟨rfl, by omega⟩
        · exact Or.inr ⟨rfl, by omega, Or.inr h2⟩

theorem deletemin_balanced (t : Bst α) (ht : Balanced t) (hne : t ≠ Bst.nil) :
    ∃ fix t' e, deletemin t = some (fix, t', e) ∧ Balanced t' ∧
      ((fix = 0 ∧ height t' = height t) ∨ (fix = 1 ∧ height t' + 1 = height t)) := by
  induction t with
  | nil => exact absurd rfl hne
  | node l q b r ihl _ =>
    obtain ⟨hl, hr, hb, hb3⟩ := ht
    cases l with
    | nil =>
      refine ⟨1, r, q, rfl, hr, Or.inr ⟨rfl, ?_⟩⟩
      simp [height]
    | node ll ln lb lr =>
      obtain ⟨fix, l', e, he, hbl, hcase⟩ := ihl hl (by simp)
      simp only [deletemin, he]
      rcases hcase with ⟨rfl, hh⟩ | ⟨rfl, hh⟩
      · refine ⟨0, Bst.node l' q b r, e, by simp, ⟨hbl, hr, by omega, hb3⟩, Or.inl ⟨rfl, ?_⟩⟩
        simp only [height] at hh ⊢; omega
      · obtain ⟨f, s', hf, hbs, hres⟩ :=
          deletefix_pos_balanced l' q b r _ hbl hr hh hb hb3
        refine ⟨f, s', e, by simp [hf], hbs, ?_⟩
        rcases hres with ⟨rfl, h1⟩ | ⟨rfl, h1⟩
        · exact Or.inl ⟨rfl, by simp only [height] at h1 ⊢; omega⟩
        · exact Or.inr ⟨rfl, by simp only [height] at h1 ⊢; omega⟩

theorem delete_eq_nil (cmp : α → α → Int) (l : Bst α) (q : α) (b : Int) (k : α)
    (old : Option α) (h : cmp k q = 0) :
    delete cmp (Bst.node l q b Bst.nil) k old = some (1, l, some q) := by
  simp [delete, sign3, h]

theorem delete_eq_node (cmp : α → α → Int) (l : Bst α) (q : α) (b : Int) (rl : Bst α) (rn : α)
    (rb : Int) (rr : Bst α) (k : α) (old : Option α) (h : cmp k q = 0) :
    delete cmp (Bst.node l q b (Bst.node rl rn rb rr)) k old =
      match deletemin (Bst.node rl rn rb rr) with
      | none => none
      | some (fix, r', e) =>
        if fix ≠ 0 then
          match deletefix (-1) (Bst.node l e b r') with
          | none => none
          | some (f, t) => some (f, t, some q)
        else some (0, Bst.node l e b r', some q) := by
  simp [delete, sign3, h]

theorem delete_lt (cmp : α → α → Int) (l : Bst α) (q : α) (b : Int) (r : Bst α) (k : α)
    (old : Option α) (h : cmp k q < 0) :
    delete cmp (Bst.node l q b r) k old =
      match delete cmp l k old with
      | none => none
      | some (fix, l', old') =>
        if fix ≠ 0 then
          match deletefix 1 (Bst.node l' q b r) with
          | none => none
          | some (f, t) => some (f, t, old')
        else some (0, Bst.node l' q b r, old') := by
  simp [delete, sign3, h, not_lt.mpr h.le]

theorem delete_gt (cmp : α → α → Int) (l : Bst α) (q : α) (b : Int) (r : Bst α) (k : α)
    (old : Option α) (h : 0 < cmp k q) :
    delete cmp (Bst.node l q b r) k old =
      match delete cmp r k old with
      | none => none
      | some (fix, r', old') =>
        if fix ≠ 0 then
          match deletefix (-1) (Bst.node l q b r') with
          | none => none
          | some (f, t) => some (f, t, old')
        else some (0, Bst.node l q b r', old') := by
  simp [delete, sign3, h]

theorem delete_balanced (cmp : α → α → Int) (k : α) (t : Bst α) (old : Option α)
    (ht : Balanced t) :
    ∃ fix t' old', delete cmp t k old = some (fix, t', old') ∧ Balanced t' ∧
      ((fix = 0 ∧ height t' = height t) ∨ (fix = 1 ∧ height t' + 1 = height t)) := by
  induction t generalizing old with
  | nil => exact ⟨0, Bst.nil, old, rfl, trivial, Or.inl ⟨rfl, rfl⟩⟩
  | node l q b r ihl ihr =>
    obtain ⟨hl, hr, hb, hb3⟩ := ht
    rcases lt_trichotomy (cmp k q) 0 with hc | hc | hc
    · rw [delete_lt cmp l q b r k old hc]
      obtain ⟨fix, l', old', he, hbl, hcase⟩ := ihl old hl
      rw [he]
      rcases hcase with ⟨rfl, hh⟩ | ⟨rfl, hh⟩
      · refine ⟨0, Bst.node l' q b r, old', by simp, ⟨hbl, hr, by omega, hb3⟩, Or.inl ⟨rfl, ?_⟩⟩
        simp only [height]; omega
      · obtain ⟨f, s', hf, hbs, hres⟩ :=
          deletefix_pos_balanced l' q b r _ hbl hr hh hb hb3
        refine ⟨f, s', old', by simp [hf], hbs, ?_⟩
        simp only [height]
        rcases hres with ⟨rfl, h1⟩ | ⟨rfl, h1⟩
        · exact Or.inl ⟨rfl, by omega⟩
        · exact Or.inr ⟨rfl, by omega⟩
    · cases r with
      | nil =>
        rw [delete_eq_nil cmp l q b k old hc]
        refine ⟨1, l, some q, rfl, hl, Or.inr ⟨rfl, ?_⟩⟩
        simp only [height] at hb ⊢; omega
      | node rl rn rb rr =>
        rw [delete_eq_node cmp l q b rl rn rb rr k old hc]
        obtain ⟨fix, r', e, he, hbr, hcase⟩ := deletemin_balanced _ hr (by simp)
        rw [he]
        rcases hcase with ⟨rfl, hh⟩ | ⟨rfl, hh⟩
        · refine ⟨0, Bst.node l e b r', some q, by simp, ⟨hl, hbr, by omega, hb3⟩,
            Or.inl ⟨rfl, ?_⟩⟩
          simp only [height] at hh ⊢; omega
        · obtain ⟨f, s', hf, hbs, hres⟩ :=
            deletefix_neg_balanced l e b r' _ hl hbr hh hb hb3
          refine ⟨f, s', some q, by simp [hf], hbs, ?_⟩
          rcases hres with ⟨rfl, h1⟩ | ⟨rfl, h1⟩
          · exact Or.inl ⟨rfl, by simp only [height] at h1 ⊢; omega⟩
          · exact Or.inr ⟨rfl, by simp only [height] at h1 ⊢; omega⟩
    · rw [delete_gt cmp l q b r k old hc]
      obtain ⟨fix, r', old', he, hbr, hcase⟩ := ihr old hr
      rw [he]
      rcases hcase with ⟨rfl, hh⟩ | ⟨rfl, hh⟩
      · refine ⟨0, Bst.node l q b r', old', by simp, ⟨hl, hbr, by omega, hb3⟩, Or.inl ⟨rfl, ?_⟩⟩
        simp only [height]; omega
      · obtain ⟨f, s', hf, hbs, hres⟩ :=
          deletefix_neg_balanced l q b r' _ hl hbr hh hb hb3
        refine ⟨f, s', old', by simp [hf], hbs, ?_⟩
        simp only [height]
        rcases hres with ⟨rfl, h1⟩ | ⟨rfl, h1⟩
        · exact Or.inl ⟨rfl, by omega⟩
        · exact Or.inr ⟨rfl, by omega⟩

/-! ## Comparator facts and the search-tree invariant -/

theorem TotalOrder.gt_iff {cmp : α → α → Int} (hc : TotalOrder cmp) (a b : α) :
    0 < cmp a b ↔ cmp b a < 0 := (hc.antisymm b a).symm

theorem TotalOrder.eq_symm {cmp : α → α → Int} (hc : TotalOrder cmp) {a b : α}
    (h : cmp a b = 0) : cmp b a = 0 := by
  have h1 := hc.antisymm a b
  have h2 := hc.antisymm b a
  omega

theorem TotalOrder.le_lt_trans {cmp : α → α → Int} (hc : TotalOrder cmp) {a b c : α}
    (h1 : cmp a b ≤ 0) (h2 : cmp b c < 0) : cmp a c < 0 := by
  have h3 := hc.trans a b c h1 h2.le
  rcases lt_or_eq_of_le h3 with h | h
  · exact h
  · have h4 := hc.trans c a b (hc.eq_symm h).le h1
    have h5 := (hc.antisymm b c).mp h2
    omega

theorem TotalOrder.lt_le_trans {cmp : α → α → Int} (hc : TotalOrder cmp) {a b c : α}
    (h1 : cmp a b < 0) (h2 : cmp b c ≤ 0) : cmp a c < 0 := by
  have h3 := hc.trans a b c h1.le h2
  rcases lt_or_eq_of_le h3 with h | h
  · exact h
  · have h4 := hc.trans b c a h2 (hc.eq_symm h).le
    have h5 := (hc.antisymm a b).mp h1
    omega

theorem TotalOrder.lt_trans {cmp : α → α → Int} (hc : TotalOrder cmp) {a b c : α}
    (h1 : cmp a b < 0) (h2 : cmp b c < 0) : cmp a c < 0 :=
  hc.lt_le_trans h1 h2.le

theorem ordered_node (cmp : α → α → Int) (l : Bst α) (q : α) (b : Int) (r : Bst α) :
    Ordered cmp (Bst.node l q b r) ↔
      Ordered cmp l ∧ Ordered cmp r ∧ (∀ x ∈ toList l, cmp x q < 0) ∧
        (∀ y ∈ toList r, cmp q y < 0) ∧ (∀ x ∈ toList l, ∀ y ∈ toList r, cmp x y < 0) := by
  simp only [Ordered, toList, List.pairwise_append, List.pairwise_cons, List.mem_cons]
  constructor
  · rintro ⟨h1, ⟨h2, h3⟩, h4⟩
    exact ⟨h1, h3, fun x hx => h4 x hx q (Or.inl rfl), h2,
      fun x hx y hy => h4 x hx y (Or.inr hy)⟩
  · rintro ⟨h1, h2, h3, h4, h5⟩
    refine ⟨h1, ⟨h4, h2⟩, ?_⟩
    rintro x hx y (rfl | hy)
    · exact h3 x hx
    · exact h5 x hx y hy

/-- The tail of `insert` after the recursive call: `insertfix` when the child
grew, nothing otherwise.  It keeps the traversal and the value of `*oldp`. -/
theorem insert_step (a : Int) (ha : a = 1 ∨ a = -1) (fix : Int) (s : Bst α)
    (old' : Option α) (res : Int × Bst α × Option α)
    (h : (if fix ≠ 0 then
            match insertfix a s with
            | none => none
            | some (f, t) => some (f, t, old')
          else some (0, s, old')) = some res) :
    toList res.2.1 = toList s ∧ res.2.2 = old' := by
  split_ifs at h with h1
  · cases hf : insertfix a s with
    | none => simp [hf] at h
    | some p =>
      obtain ⟨f, t⟩ := p
      simp only [hf, Option.some.injEq] at h
      subst h
      exact ⟨insertfix_toList a ha s f t hf, rfl⟩
  · simp only [Option.some.injEq] at h
    subst h
    exact ⟨rfl, rfl⟩

/-- The tail of `delete` and `deletemin` after the recursive call. -/
theorem delete_step {β : Type} (a : Int) (ha : a = 1 ∨ a = -1) (fix : Int) (s : Bst α)
    (old' : β) (res : Int × Bst α × β)
    (h : (if fix ≠ 0 then
            match deletefix a s with
            | none => none
            | some (f, t) => some (f, t, old')
          else some (0, s, old')) = some res) :
    toList res.2.1 = toList s ∧ res.2.2 = old' := by
  split_ifs at h with h1
  · cases hf : deletefix a s with
    | none => simp [hf] at h
    | some p =>
      obtain ⟨f, t⟩ := p
      simp only [hf, Option.some.injEq] at h
      subst h
      exact ⟨deletefix_toList a ha s f t hf, rfl⟩
  · simp only [Option.some.injEq] at h
    subst h
    exact ⟨rfl, rfl⟩

theorem filter_all {p : α → Bool} {l : List α} (h : ∀ x ∈ l, p x = true) : l.filter p = l :=
  List.filter_eq_self.mpr h

theorem filter_none {p : α → Bool} {l : List α} (h : ∀ x ∈ l, p x = false) : l.filter p = [] :=
  List.filter_eq_nil_iff.mpr (fun x hx => by simp [h x hx])

/-- What `insert` does to the traversal of an ordered subtree and to `*oldp`. -/
theorem insert_spec (cmp : α → α → Int) (hc : TotalOrder cmp) (k : α) (t : Bst α)
    (old : Option α) (res : Int × Bst α × Option α) (ho : Ordered cmp t)
    (h : insert cmp t k old = some res) :
    toList res.2.1 = (toList t).filter (fun x => decide (0 < cmp k x)) ++
        k :: (toList t).filter (fun x => decide (cmp k x < 0)) ∧
      ((res.2.2 = old ∧ ∀ x ∈ toList t, cmp k x ≠ 0) ∨
       (∃ q ∈ toList t, cmp k q = 0 ∧ res.2.2 = some q)) := by
  induction t generalizing old res with
  | nil =>
    simp only [insert, Option.some.injEq] at h
    subst h
    simp [toList]
  | node l q b r ihl ihr =>
    obtain ⟨hol, hor, hlq, hqr, hlr⟩ := (ordered_node cmp l q b r).mp ho
    rcases lt_trichotomy (cmp k q) 0 with hk | hk | hk
    · rw [insert_lt cmp l q b r k old hk] at h
      cases hi : insert cmp l k old with
      | none => simp [hi] at h
      | some p =>
        obtain ⟨fix, l', old'⟩ := p
        simp only [hi] at h
        obtain ⟨h1, h2⟩ := insert_step (-1) (Or.inr rfl) fix _ old' res h
        obtain ⟨h3, h4⟩ := ihl old _ hol hi
        simp only at h3 h4
        have hr1 : ∀ y ∈ toList r, cmp k y < 0 := fun y hy => hc.lt_trans hk (hqr y hy)
        have hf1 : (toList r).filter (fun x => decide (0 < cmp k x)) = [] :=
          filter_none (fun y hy => by have := hr1 y hy; simp; omega)
        have hf2 : (toList r).filter (fun x => decide (cmp k x < 0)) = toList r :=
          filter_all (fun y hy => by simpa using hr1 y hy)
        refine ⟨?_, ?_⟩
        · rw [h1]
          simp only [toList, List.filter_append, List.filter_cons, hf1, hf2, h3]
          simp [hk, not_lt.mpr hk.le]
        · rw [h2]
          rcases h4 with ⟨h5, h6⟩ | ⟨x, hx, h5, h6⟩
          · left
            refine ⟨h5, fun x hx => ?_⟩
            simp only [toList, List.mem_append, List.mem_cons] at hx
            rcases hx with hx | rfl | hx
            · exact h6 x hx
            · omega
            · have := hr1 x hx; omega
          · right
            exact ⟨x, by simp [toList, hx], h5, h6⟩
    · rw [insert_eq cmp l q b r k old hk] at h
      simp only [Option.some.injEq] at h
      subst h
      have hl1 : ∀ x ∈ toList l, 0 < cmp k x := fun x hx =>
        (hc.gt_iff k x).mpr (hc.lt_le_trans (hlq x hx) (hc.eq_symm hk).le)
      have hr1 : ∀ y ∈ toList r, cmp k y < 0 := fun y hy =>
        hc.le_lt_trans hk.le (hqr y hy)
      have hf1 : (toList r).filter (fun x => decide (0 < cmp k x)) = [] :=
        filter_none (fun y hy => by have := hr1 y hy; simp; omega)
      have hf2 : (toList r).filter (fun x => decide (cmp k x < 0)) = toList r :=
        filter_all (fun y hy => by simpa using hr1 y hy)
      have hf3 : (toList l).filter (fun x => decide (0 < cmp k x)) = toList l :=
        filter_all (fun y hy => by simpa using hl1 y hy)
      have hf4 : (toList l).filter (fun x => decide (cmp k x < 0)) = [] :=
        filter_none (fun y hy => by have := hl1 y hy; simp; omega)
      refine ⟨?_, Or.inr ⟨q, by simp [toList], hk, rfl⟩⟩
      simp only [toList, List.filter_append, List.filter_cons, hf1, hf2, hf3, hf4]
      simp [hk]
    · rw [insert_gt cmp l q b r k old hk] at h
      cases hi : insert cmp r k old with
      | none => simp [hi] at h
      | some p =>
        obtain ⟨fix, r', old'⟩ := p
        simp only [hi] at h
        obtain ⟨h1, h2⟩ := insert_step 1 (Or.inl rfl) fix _ old' res h
        obtain ⟨h3, h4⟩ := ihr old _ hor hi
        simp only at h3 h4
        have hl1 : ∀ x ∈ toList l, 0 < cmp k x := fun x hx =>
          (hc.gt_iff k x).mpr (hc.lt_trans (hlq x hx) ((hc.gt_iff k q).mp hk))
        have hf3 : (toList l).filter (fun x => decide (0 < cmp k x)) = toList l :=
          filter_all (fun y hy => by simpa using hl1 y hy)
        have hf4 : (toList l).filter (fun x => decide (cmp k x < 0)) = [] :=
          filter_none (fun y hy => by have := hl1 y hy; simp; omega)
        refine ⟨?_, ?_⟩
        · rw [h1]
          simp only [toList, List.filter_append, List.filter_cons, hf3, hf4, h3]
          simp [hk, not_lt.mpr hk.le]
        · rw [h2]
          rcases h4 with ⟨h5, h6⟩ | ⟨x, hx, h5, h6⟩
          · left
            refine ⟨h5, fun x hx => ?_⟩
            simp only [toList, List.mem_append, List.mem_cons] at hx
            rcases hx with hx | rfl | hx
            · have := hl1 x hx; omega
            · omega
            · exact h6 x hx
          · right
            exact ⟨x, by simp [toList, hx], h5, h6⟩

/-! ## Delete on an ordered tree -/

/-- The node stored by `deletemin` is the first node of the traversal, and the
subtree it leaves holds the remaining nodes in their order. -/
theorem deletemin_spec (t : Bst α) (res : Int × Bst α × α) (h : deletemin t = some res) :
    toList t = res.2.2 :: toList res.2.1 := by
  induction t generalizing res with
  | nil => simp [deletemin] at h
  | node l q b r ihl _ =>
    cases l with
    | nil =>
      simp only [deletemin, Option.some.injEq] at h
      subst h
      simp [toList]
    | node ll ln lb lr =>
      simp only [deletemin] at h
      cases hd : deletemin (Bst.node ll ln lb lr) with
      | none => simp [hd] at h
      | some p =>
        obtain ⟨fix, l', e⟩ := p
        simp only [hd] at h
        obtain ⟨h1, h2⟩ := delete_step 1 (Or.inl rfl) fix _ e res h
        have h3 := ihl _ hd
        simp only at h3
        rw [h1, h2]
        simp only [toList] at h3 ⊢
        rw [h3]
        simp

/-- What `delete` does to the traversal of an ordered subtree and to `*oldp`. -/
theorem delete_spec (cmp : α → α → Int) (hc : TotalOrder cmp) (k : α) (t : Bst α)
    (old : Option α) (res : Int × Bst α × Option α) (ho : Ordered cmp t)
    (h : delete cmp t k old = some res) :
    toList res.2.1 = (toList t).filter (fun x => decide (cmp k x ≠ 0)) ∧
      ((res.2.2 = old ∧ ∀ x ∈ toList t, cmp k x ≠ 0) ∨
       (∃ q ∈ toList t, cmp k q = 0 ∧ res.2.2 = some q)) := by
  induction t generalizing old res with
  | nil =>
    simp only [delete, Option.some.injEq] at h
    subst h
    simp [toList]
  | node l q b r ihl ihr =>
    obtain ⟨hol, hor, hlq, hqr, hlr⟩ := (ordered_node cmp l q b r).mp ho
    rcases lt_trichotomy (cmp k q) 0 with hk | hk | hk
    · rw [delete_lt cmp l q b r k old hk] at h
      cases hi : delete cmp l k old with
      | none => simp [hi] at h
      | some p =>
        obtain ⟨fix, l', old'⟩ := p
        simp only [hi] at h
        obtain ⟨h1, h2⟩ := delete_step 1 (Or.inl rfl) fix _ old' res h
        obtain ⟨h3, h4⟩ := ihl old _ hol hi
        simp only at h3 h4
        have hr1 : ∀ y ∈ toList r, cmp k y < 0 := fun y hy => hc.lt_trans hk (hqr y hy)
        have hf2 : (toList r).filter (fun x => decide (cmp k x ≠ 0)) = toList r :=
          filter_all (fun y hy => by have := hr1 y hy; simp; omega)
        refine ⟨?_, ?_⟩
        · rw [h1]
          simp only [toList, List.filter_append, List.filter_cons, hf2, h3]
          simp [hk.ne]
        · rw [h2]
          rcases h4 with ⟨h5, h6⟩ | ⟨x, hx, h5, h6⟩
          · left
            refine ⟨h5, fun x hx => ?_⟩
            simp only [toList, List.mem_append, List.mem_cons] at hx
            rcases hx with hx | rfl | hx
            · exact h6 x hx
            · omega
            · have := hr1 x hx; omega
          · right
            exact ⟨x, by simp [toList, hx], h5, h6⟩
    · have hl1 : ∀ x ∈ toList l, 0 < cmp k x := fun x hx =>
        (hc.gt_iff k x).mpr (hc.lt_le_trans (hlq x hx) (hc.eq_symm hk).le)
      have hr1 : ∀ y ∈ toList r, cmp k y < 0 := fun y hy =>
        hc.le_lt_trans hk.le (hqr y hy)
      have hf2 : (toList r).filter (fun x => decide (cmp k x ≠ 0)) = toList r :=
        filter_all (fun y hy => by have := hr1 y hy; simp; omega)
      have hf3 : (toList l).filter (fun x => decide (cmp k x ≠ 0)) = toList l :=
        filter_all (fun y hy => by have := hl1 y hy; simp; omega)
      have hfil : (toList (Bst.node l q b r)).filter (fun x => decide (cmp k x ≠ 0))
          = toList l ++ toList r := by
        simp only [toList, List.filter_append, List.filter_cons, hf2, hf3]
        simp [hk]
      rw [hfil]
      cases r with
      | nil =>
        rw [delete_eq_nil cmp l q b k old hk] at h
        simp only [Option.some.injEq] at h
        subst h
        exact ⟨by simp [toList], Or.inr ⟨q, by simp [toList], hk, rfl⟩⟩
      | node rl rn rb rr =>
        rw [delete_eq_node cmp l q b rl rn rb rr k old hk] at h
        cases hd : deletemin (Bst.node rl rn rb rr) with
        | none => simp [hd] at h
        | some p =>
          obtain ⟨fix, r', e⟩ := p
          simp only [hd] at h
          obtain ⟨h1, h2⟩ := delete_step (-1) (Or.inr rfl) fix _ (some q) res h
          have h3 := deletemin_spec _ _ hd
          simp only at h3
          refine ⟨?_, Or.inr ⟨q, by simp [toList], hk, h2⟩⟩
          rw [h1, h3]
          simp [toList]
    · rw [delete_gt cmp l q b r k old hk] at h
      cases hi : delete cmp r k old with
      | none => simp [hi] at h
      | some p =>
        obtain ⟨fix, r', old'⟩ := p
        simp only [hi] at h
        obtain ⟨h1, h2⟩ := delete_step (-1) (Or.inr rfl) fix _ old' res h
        obtain ⟨h3, h4⟩ := ihr old _ hor hi
        simp only at h3 h4
        have hl1 : ∀ x ∈ toList l, 0 < cmp k x := fun x hx =>
          (hc.gt_iff k x).mpr (hc.lt_trans (hlq x hx) ((hc.gt_iff k q).mp hk))
        have hf3 : (toList l).filter (fun x => decide (cmp k x ≠ 0)) = toList l :=
          filter_all (fun y hy => by have := hl1 y hy; simp; omega)
        refine ⟨?_, ?_⟩
        · rw [h1]
          simp only [toList, List.filter_append, List.filter_cons, hf3, h3]
          simp [hk.ne']
        · rw [h2]
          rcases h4 with ⟨h5, h6⟩ | ⟨x, hx, h5, h6⟩
          · left
            refine ⟨h5, fun x hx => ?_⟩
            simp only [toList, List.mem_append, List.mem_cons] at hx
            rcases hx with hx | rfl | hx
            · have := hl1 x hx; omega
            · omega
            · exact h6 x hx
          · right
            exact ⟨x, by simp [toList, hx], h5, h6⟩

/-! ## Lookup, uniqueness and counting on an ordered tree -/

theorem cmpKey_total : TotalOrder cmpKey := by
  refine ⟨?_, ?_, ?_⟩
  · intro a; simp [cmpKey]
  · intro a b; simp only [cmpKey]; omega
  · intro a b c; simp only [cmpKey]; omega

theorem cmpInt_total : TotalOrder cmpInt := by
  refine ⟨?_, ?_, ?_⟩
  · intro a; simp [cmpInt]
  · intro a b; simp only [cmpInt]; omega
  · intro a b c; simp only [cmpInt]; omega

/-- Two nodes of a strictly ascending list that compare equal are the same node. -/
theorem pairwise_unique (cmp : α → α → Int) (hc : TotalOrder cmp) (l : List α)
    (ho : l.Pairwise (fun x y => cmp x y < 0)) :
    ∀ x ∈ l, ∀ y ∈ l, cmp x y = 0 → x = y := by
  intro x hx y hy hxy
  by_contra hne
  have hs : Symmetric (fun a b : α => cmp a b ≠ 0) := by
    intro a b hab h0
    exact hab (hc.eq_symm h0)
  have hp : l.Pairwise (fun a b => cmp a b ≠ 0) := ho.imp (fun h => h.ne)
  exact hp.forall hs hx hy hne hxy

/-- The traversal after an insert, as a list, is again strictly ascending. -/
theorem pairwise_insert (cmp : α → α → Int) (hc : TotalOrder cmp) (k : α) (l : List α)
    (ho : l.Pairwise (fun x y => cmp x y < 0)) :
    (l.filter (fun x => decide (0 < cmp k x)) ++
      k :: l.filter (fun x => decide (cmp k x < 0))).Pairwise (fun x y => cmp x y < 0) := by
  rw [List.pairwise_append, List.pairwise_cons]
  refine ⟨ho.filter _, ⟨?_, ho.filter _⟩, ?_⟩
  · intro y hy
    simpa using (List.mem_filter.mp hy).2
  · intro x hx y hy
    have hx1 : 0 < cmp k x := by simpa using (List.mem_filter.mp hx).2
    have hx2 : cmp x k < 0 := (hc.gt_iff k x).mp hx1
    rcases List.mem_cons.mp hy with rfl | hy
    · exact hx2
    · have hy1 : cmp k y < 0 := by simpa using (List.mem_filter.mp hy).2
      exact hc.lt_trans hx2 hy1

/-- An ordered list holds at most one node that compares equal to `k`. -/
theorem filter_ne_length (cmp : α → α → Int) (hc : TotalOrder cmp) (k : α) (l : List α)
    (ho : l.Pairwise (fun x y => cmp x y < 0)) (hex : ∃ x ∈ l, cmp k x = 0) :
    (l.filter (fun x => decide (cmp k x ≠ 0))).length + 1 = l.length := by
  have hlen := List.length_eq_length_filter_add (l := l) (fun x => decide (cmp k x ≠ 0))
  have hone : (l.filter (fun x => !decide (cmp k x ≠ 0))).length = 1 := by
    have hp := ho.filter (fun x => !decide (cmp k x ≠ 0))
    obtain ⟨x, hx, hkx⟩ := hex
    have hxm : x ∈ l.filter (fun x => !decide (cmp k x ≠ 0)) :=
      List.mem_filter.mpr ⟨hx, by simp [hkx]⟩
    have hall : ∀ y ∈ l.filter (fun x => !decide (cmp k x ≠ 0)), cmp k y = 0 := by
      intro y hy
      simpa using (List.mem_filter.mp hy).2
    generalize l.filter (fun x => !decide (cmp k x ≠ 0)) = m at hp hxm hall
    match m, hp, hxm, hall with
    | [], _, hxm, _ => simp at hxm
    | [_], _, _, _ => rfl
    | a :: b :: _, hp, _, hall =>
      exfalso
      have hab : cmp a b < 0 := (List.pairwise_cons.mp hp).1 b (by simp)
      have ha : cmp k a = 0 := hall a (by simp)
      have hb : cmp k b = 0 := hall b (by simp)
      have h1 := hc.trans b k a (hc.eq_symm hb).le ha.le
      have h2 := (hc.antisymm a b).mp hab
      omega
  omega

theorem lookup_some (cmp : α → α → Int) (k : α) (t : Bst α) (h : α)
    (hl : lookup cmp t k = some h) : h ∈ toList t ∧ cmp k h = 0 := by
  induction t with
  | nil => simp [lookup] at hl
  | node l q b r ihl ihr =>
    simp only [lookup] at hl
    split_ifs at hl with h1 h2
    · have := ihl hl
      exact ⟨by simp [toList, this.1], this.2⟩
    · have := ihr hl
      exact ⟨by simp [toList, this.1], this.2⟩
    · simp only [Option.some.injEq] at hl
      subst hl
      exact ⟨by simp [toList], by omega⟩

theorem lookup_none_of_absent (cmp : α → α → Int) (k : α) (t : Bst α)
    (h : ∀ x ∈ toList t, cmp k x ≠ 0) : lookup cmp t k = none := by
  cases hl : lookup cmp t k with
  | none => rfl
  | some x =>
    have := lookup_some cmp k t x hl
    exact absurd this.2 (h x this.1)

theorem lookup_none_absent (cmp : α → α → Int) (hc : TotalOrder cmp) (k : α) (t : Bst α)
    (ho : Ordered cmp t) (hl : lookup cmp t k = none) : ∀ x ∈ toList t, cmp k x ≠ 0 := by
  induction t with
  | nil => simp [toList]
  | node l q b r ihl ihr =>
    obtain ⟨hol, hor, hlq, hqr, -⟩ := (ordered_node cmp l q b r).mp ho
    simp only [lookup] at hl
    intro x hx
    simp only [toList, List.mem_append, List.mem_cons] at hx
    split_ifs at hl with h1 h2
    · rcases hx with hx | rfl | hx
      · exact ihl hol hl x hx
      · omega
      · have := hc.lt_trans h1 (hqr x hx); omega
    · rcases hx with hx | rfl | hx
      · have := (hc.gt_iff k x).mpr (hc.lt_trans (hlq x hx) ((hc.gt_iff k q).mp h2)); omega
      · omega
      · exact ihr hor hl x hx

/-- On an ordered tree that holds a node equal to `k`, `insert` displaces that
node and reports an unchanged height, whatever the balance fields hold. -/
theorem insert_displace (cmp : α → α → Int) (hc : TotalOrder cmp) (k : α) (t : Bst α)
    (old : Option α) (ho : Ordered cmp t) (hex : ∃ x ∈ toList t, cmp k x = 0) :
    ∃ t' q, insert cmp t k old = some (0, t', some q) := by
  induction t with
  | nil => simp [toList] at hex
  | node l q b r ihl ihr =>
    obtain ⟨hol, hor, hlq, hqr, -⟩ := (ordered_node cmp l q b r).mp ho
    obtain ⟨x, hx, hkx⟩ := hex
    simp only [toList, List.mem_append, List.mem_cons] at hx
    rcases lt_trichotomy (cmp k q) 0 with hk | hk | hk
    · rw [insert_lt cmp l q b r k old hk]
      have hxl : x ∈ toList l := by
        rcases hx with hx | rfl | hx
        · exact hx
        · omega
        · have := hc.lt_trans hk (hqr x hx); omega
      obtain ⟨l', q', he⟩ := ihl hol ⟨x, hxl, hkx⟩
      exact ⟨Bst.node l' q b r, q', by simp [he]⟩
    · exact ⟨Bst.node l k b r, q, insert_eq cmp l q b r k old hk⟩
    · rw [insert_gt cmp l q b r k old hk]
      have hxr : x ∈ toList r := by
        rcases hx with hx | rfl | hx
        · have := (hc.gt_iff k x).mpr (hc.lt_trans (hlq x hx) ((hc.gt_iff k q).mp hk)); omega
        · omega
        · exact hx
      obtain ⟨r', q', he⟩ := ihr hor ⟨x, hxr, hkx⟩
      exact ⟨Bst.node l q b r', q', by simp [he]⟩

theorem noMatchOnPath_of_absent (cmp : α → α → Int) (k : α) (t : Bst α)
    (h : ∀ x ∈ toList t, cmp k x ≠ 0) : NoMatchOnPath cmp t k := by
  induction t with
  | nil => trivial
  | node l q b r ihl ihr =>
    simp only [toList, List.mem_append, List.mem_cons] at h
    exact ⟨h q (Or.inr (Or.inl rfl)), fun _ => ihl (fun x hx => h x (Or.inl hx)),
      fun _ => ihr (fun x hx => h x (Or.inr (Or.inr hx)))⟩

/-- When the search path of `k` holds no equal node, `delete` reaches `nil`,
writes nothing and reports an unchanged height at every level. -/
theorem delete_noMatch (cmp : α → α → Int) (k : α) (t : Bst α) (old : Option α)
    (h : NoMatchOnPath cmp t k) : delete cmp t k old = some (0, t, old) := by
  induction t with
  | nil => rfl
  | node l q b r ihl ihr =>
    obtain ⟨h0, h1, h2⟩ := h
    rcases lt_trichotomy (cmp k q) 0 with hk | hk | hk
    · rw [delete_lt cmp l q b r k old hk, ihl (h1 hk)]
      simp
    · exact absurd hk h0
    · rw [delete_gt cmp l q b r k old hk, ihr (h2 hk)]
      simp

/-! ## The entry points -/

theorem avlinsert_some (t : Bsttree α) (k : α) (res : Bsttree α × Option α)
    (h : avlinsert t k = some res) :
    ∃ fix, insert t.cmp t.root k none = some (fix, res.1.root, res.2) := by
  unfold avlinsert at h
  cases hi : insert t.cmp t.root k none with
  | none => simp [hi] at h
  | some p =>
    obtain ⟨fix, root, old⟩ := p
    simp only [hi, Option.some.injEq] at h
    subst h
    exact ⟨fix, rfl⟩

theorem avlinsert_of_insert (t : Bsttree α) (k : α) (fix : Int) (root : Bst α) (old : Option α)
    (h : insert t.cmp t.root k none = some (fix, root, old)) :
    avlinsert t k = some ({ t with root := root }, old) := by
  simp [avlinsert, h]

theorem avldelete_some (t : Bsttree α) (k : α) (res : Bsttree α × Option α)
    (h : avldelete t k = some res) :
    ∃ fix, delete t.cmp t.root k none = some (fix, res.1.root, res.2) := by
  unfold avldelete at h
  cases hr : t.root with
  | nil =>
    simp only [hr, Option.some.injEq] at h
    subst h
    exact ⟨0, by simp [delete, hr]⟩
  | node l q b r =>
    simp only [hr] at h
    cases hi : delete t.cmp (Bst.node l q b r) k none with
    | none => simp [hi] at h
    | some p =>
      obtain ⟨fix, root, old⟩ := p
      simp only [hi, Option.some.injEq] at h
      subst h
      exact ⟨fix, rfl⟩

theorem avldelete_of_delete (t : Bsttree α) (k : α) (fix : Int) (root : Bst α) (old : Option α)
    (h : delete t.cmp t.root k none = some (fix, root, old)) :
    avldelete t k = some ({ t with root := root }, old) := by
  unfold avldelete
  cases hr : t.root with
  | nil =>
    rw [hr] at h
    simp only [delete, Option.some.injEq, Prod.mk.injEq] at h
    obtain ⟨-, rfl, rfl⟩ := h
    cases t
    simp_all
  | node l q b r =>
    rw [hr] at h
    simp [h]

/-! ## Invariants of insert, delete and lookup -/

/-- C1: for a total-order comparator and a tree whose in-order
traversal is strictly ascending, every tree left by `avlinsert` is again
strictly ascending and holds at most one node per class of equal nodes; the
call completes whenever the tree also satisfies the balance invariant or holds
a node equal to `k`. -/
theorem insert_preserves_order (t : Bsttree α) (k : α) (hc : TotalOrder t.cmp)
    (ho : Ordered t.cmp t.root) :
    (∀ res, avlinsert t k = some res →
      Ordered t.cmp res.1.root ∧
        ∀ x ∈ toList res.1.root, ∀ y ∈ toList res.1.root, t.cmp x y = 0 → x = y) ∧
    ((Balanced t.root ∨ ∃ x ∈ toList t.root, t.cmp k x = 0) →
      ∃ res, avlinsert t k = some res) := by
  constructor
  · intro res h
    obtain ⟨fix, hi⟩ := avlinsert_some t k res h
    have hs := (insert_spec t.cmp hc k t.root none _ ho hi).1
    simp only at hs
    have hord : Ordered t.cmp res.1.root := by
      unfold Ordered
      rw [hs]
      exact pairwise_insert t.cmp hc k _ ho
    exact ⟨hord, pairwise_unique t.cmp hc _ hord⟩
  · rintro (hb | hex)
    · obtain ⟨fix, t', old', hi, -, -⟩ := insert_balanced t.cmp k t.root none hb
      exact ⟨_, avlinsert_of_insert t k fix t' old' hi⟩
    · obtain ⟨t', q, hi⟩ := insert_displace t.cmp hc k t.root none ho hex
      exact ⟨_, avlinsert_of_insert t k 0 t' (some q) hi⟩

/-- Witness for C1: inserting 25 into the tree 10, 20, 30. -/
theorem insert_preserves_order_witness :
    TotalOrder (intTree tree3).cmp ∧ Ordered (intTree tree3).cmp (intTree tree3).root ∧
      Ordered cmpInt (Bst.node (leaf 10) 20 1 (Bst.node (leaf 25) 30 (-1) Bst.nil)) :=
  ⟨cmpInt_total, by simp [Ordered, toList, intTree, tree3, leaf, cmpInt],
    ((insert_preserves_order (intTree tree3) 25 cmpInt_total
      (by simp [Ordered, toList, intTree, tree3, leaf, cmpInt])).1
      (intTree (Bst.node (leaf 10) 20 1 (Bst.node (leaf 25) 30 (-1) Bst.nil)), none) rfl).1⟩

/-- C2: on a tree in which every stored balance is the height difference of
the children and lies in `{-1, 0, 1}`, `avlinsert` completes and the tree it
leaves has the same property at every node. -/
theorem insert_preserves_balance (t : Bsttree α) (k : α) (hb : Balanced t.root) :
    ∃ res, avlinsert t k = some res ∧ Balanced res.1.root := by
  obtain ⟨fix, t', old', hi, hb', -⟩ := insert_balanced t.cmp k t.root none hb
  exact ⟨_, avlinsert_of_insert t k fix t' old' hi, hb'⟩

/-- Witness for C2: inserting 50 into the five-node tree (a single rotation). -/
theorem insert_preserves_balance_witness :
    Balanced (intTree tree5).root ∧
      ∃ res, avlinsert (intTree tree5) 50 = some res ∧ Balanced res.1.root :=
  ⟨by simp [Balanced, height, intTree, tree5, leaf],
    insert_preserves_balance (intTree tree5) 50
      (by simp [Balanced, height, intTree, tree5, leaf])⟩

/-- C3: on a tree satisfying the balance invariant, `avldelete` completes and
the tree it leaves satisfies the balance invariant at every node. -/
theorem delete_preserves_balance (t : Bsttree α) (k : α) (hb : Balanced t.root) :
    ∃ res, avldelete t k = some res ∧ Balanced res.1.root := by
  obtain ⟨fix, t', old', hi, hb', -⟩ := delete_balanced t.cmp k t.root none hb
  exact ⟨_, avldelete_of_delete t k fix t' old' hi, hb'⟩

/-- Witness for C3: deleting 10 from the five-node tree (`deletefix` rotates at the
root, the heavy child having balance 0). -/
theorem delete_preserves_balance_witness :
    Balanced (intTree tree5).root ∧
      ∃ res, avldelete (intTree tree5) 10 = some res ∧ Balanced res.1.root :=
  ⟨by simp [Balanced, height, intTree, tree5, leaf],
    delete_preserves_balance (intTree tree5) 10
      (by simp [Balanced, height, intTree, tree5, leaf])⟩

/-- C4: for a total-order comparator and a strictly ascending tree,
every tree left by `avldelete` is strictly ascending; wherever `delete` removes
a node with a right subtree, the node spliced into its place is the minimum of
that subtree, greater than everything on the left and smaller than everything
left on the right; the call completes whenever the tree also satisfies the
balance invariant or holds no node equal to `k`. -/
theorem delete_preserves_order (t : Bsttree α) (k : α) (hc : TotalOrder t.cmp)
    (ho : Ordered t.cmp t.root) :
    (∀ res, avldelete t k = some res →
      Ordered t.cmp res.1.root ∧
        ∀ x ∈ toList res.1.root, ∀ y ∈ toList res.1.root, t.cmp x y = 0 → x = y) ∧
    (∀ l q b r old res, Ordered t.cmp (Bst.node l q b r) → t.cmp k q = 0 → r ≠ Bst.nil →
      delete t.cmp (Bst.node l q b r) k old = some res →
      ∃ fix r' e, deletemin r = some (fix, r', e) ∧ toList r = e :: toList r' ∧
        toList res.2.1 = toList l ++ e :: toList r' ∧
        (∀ x ∈ toList l, t.cmp x e < 0) ∧ (∀ y ∈ toList r', t.cmp e y < 0)) ∧
    ((Balanced t.root ∨ ∀ x ∈ toList t.root, t.cmp k x ≠ 0) →
      ∃ res, avldelete t k = some res) := by
  refine ⟨?_, ?_, ?_⟩
  · intro res h
    obtain ⟨fix, hi⟩ := avldelete_some t k res h
    have hs := (delete_spec t.cmp hc k t.root none _ ho hi).1
    simp only at hs
    have hord : Ordered t.cmp res.1.root := by
      unfold Ordered
      rw [hs]
      exact List.Pairwise.filter _ ho
    exact ⟨hord, pairwise_unique t.cmp hc _ hord⟩
  · intro l q b r old res hos hk hr hi
    obtain ⟨-, hor, -, -, hlr⟩ := (ordered_node t.cmp l q b r).mp hos
    cases r with
    | nil => exact absurd rfl hr
    | node rl rn rb rr =>
      rw [delete_eq_node t.cmp l q b rl rn rb rr k old hk] at hi
      cases hd : deletemin (Bst.node rl rn rb rr) with
      | none => simp [hd] at hi
      | some p =>
        obtain ⟨f, r', e⟩ := p
        simp only [hd] at hi
        obtain ⟨h1, -⟩ := delete_step (-1) (Or.inr rfl) f _ (some q) _ hi
        have h3 := deletemin_spec _ _ hd
        simp only at h1 h3
        refine ⟨f, r', e, rfl, h3, by simpa [toList] using h1, ?_, ?_⟩
        · intro x hx
          exact hlr x hx e (by rw [h3]; simp)
        · intro y hy
          unfold Ordered at hor
          rw [h3] at hor
          exact (List.pairwise_cons.mp hor).1 y hy
  · rintro (hb | hne)
    · obtain ⟨fix, t', old', hi, -, -⟩ := delete_balanced t.cmp k t.root none hb
      exact ⟨_, avldelete_of_delete t k fix t' old' hi⟩
    · exact ⟨_, avldelete_of_delete t k 0 t.root none
        (delete_noMatch t.cmp k t.root none (noMatchOnPath_of_absent t.cmp k t.root hne))⟩

/-- Witness for C4: deleting the root 20 of the five-node tree; 25 takes its place. -/
theorem delete_preserves_order_witness :
    TotalOrder (intTree tree5).cmp ∧ Ordered (intTree tree5).cmp (intTree tree5).root ∧
      Ordered cmpInt (Bst.node (leaf 10) 25 1 (Bst.node Bst.nil 30 1 (leaf 40))) :=
  ⟨cmpInt_total, by simp [Ordered, toList, intTree, tree5, leaf, cmpInt],
    ((delete_preserves_order (intTree tree5) 20 cmpInt_total
      (by simp [Ordered, toList, intTree, tree5, leaf, cmpInt])).1
      (intTree (Bst.node (leaf 10) 25 1 (Bst.node Bst.nil 30 1 (leaf 40))), some 20) rfl).1⟩

/-- C5: on a strictly ascending tree under a total-order comparator,
`avllookup` returns only nodes of the tree that compare equal to the probe,
returns one whenever the tree holds one, returns absent exactly when no node
compares equal, and returns absent on the empty tree. -/
theorem lookup_correct (t : Bsttree α) (k : α) (hc : TotalOrder t.cmp)
    (ho : Ordered t.cmp t.root) :
    (∀ h, avllookup t k = some h → h ∈ toList t.root ∧ t.cmp k h = 0) ∧
    ((∃ x ∈ toList t.root, t.cmp k x = 0) →
      ∃ h, avllookup t k = some h ∧ h ∈ toList t.root ∧ t.cmp k h = 0) ∧
    (avllookup t k = none ↔ ∀ x ∈ toList t.root, t.cmp k x ≠ 0) ∧
    avllookup (bstcreateavl t.cmp) k = none := by
  refine ⟨fun h hl => lookup_some t.cmp k t.root h hl, ?_, ⟨?_, ?_⟩, rfl⟩
  · rintro ⟨x, hx, hkx⟩
    cases hl : avllookup t k with
    | none => exact absurd hkx (lookup_none_absent t.cmp hc k t.root ho hl x hx)
    | some h => exact ⟨h, rfl, lookup_some t.cmp k t.root h hl⟩
  · exact lookup_none_absent t.cmp hc k t.root ho
  · exact lookup_none_of_absent t.cmp k t.root

/-- Witness for C5: looking up 25 in the five-node tree. -/
theorem lookup_correct_witness :
    TotalOrder (intTree tree5).cmp ∧ Ordered (intTree tree5).cmp (intTree tree5).root ∧
      ∃ h, avllookup (intTree tree5) 25 = some h ∧ h ∈ toList (intTree tree5).root ∧
        (intTree tree5).cmp 25 h = 0 :=
  ⟨cmpInt_total, by simp [Ordered, toList, intTree, tree5, leaf, cmpInt],
    (lookup_correct (intTree tree5) 25 cmpInt_total
      (by simp [Ordered, toList, intTree, tree5, leaf, cmpInt])).2.1
      ⟨25, by simp [toList, intTree, tree5, leaf], by simp [intTree, cmpInt]⟩⟩

/-! ## Set semantics and return values -/

/-- The nodes below and above `k`, taken together, are the nodes not equal to `k`. -/
theorem filter_split_perm (cmp : α → α → Int) (k : α) (l : List α) :
    (l.filter (fun x => decide (0 < cmp k x)) ++
      l.filter (fun x => decide (cmp k x < 0))).Perm
      (l.filter (fun x => decide (cmp k x ≠ 0))) := by
  induction l with
  | nil => simp
  | cons a l ih =>
    rcases lt_trichotomy (cmp k a) 0 with h | h | h
    · have h1 : ¬ 0 < cmp k a := by omega
      have h2 : cmp k a ≠ 0 := by omega
      simp only [List.filter_cons, h, h1, h2, decide_True, decide_False, ite_true, ite_false,
        ne_eq, not_false_eq_true]
      exact List.perm_middle.trans (List.Perm.cons a ih)
    · simp only [List.filter_cons, h, lt_self_iff_false, decide_False, ite_false, ne_eq,
        not_true_eq_false]
      exact ih
    · have h1 : ¬ cmp k a < 0 := by omega
      have h2 : cmp k a ≠ 0 := by omega
      simp only [List.filter_cons, h, h1, h2, decide_True, decide_False, ite_true, ite_false,
        ne_eq, not_false_eq_true, List.cons_append]
      exact List.Perm.cons a ih

/-- C6: for a total-order comparator and a strictly ascending tree,
the nodes reachable after a completed `avlinsert` are the nodes before, without
the node equal to `k`, with `k` added in its place in the order; the count
grows by one when no equal node was resident and is unchanged otherwise.  The
call completes whenever the tree satisfies the balance invariant or holds a
node equal to `k`. -/
theorem insert_set_semantics (t : Bsttree α) (k : α) (hc : TotalOrder t.cmp)
    (ho : Ordered t.cmp t.root) :
    (∀ res, avlinsert t k = some res →
      toList res.1.root =
          (toList t.root).filter (fun x => decide (0 < t.cmp k x)) ++
            k :: (toList t.root).filter (fun x => decide (t.cmp k x < 0)) ∧
        (toList res.1.root).Perm
          (k :: (toList t.root).filter (fun x => decide (t.cmp k x ≠ 0))) ∧
        ((∀ x ∈ toList t.root, t.cmp k x ≠ 0) →
          (toList res.1.root).length = (toList t.root).length + 1) ∧
        ((∃ x ∈ toList t.root, t.cmp k x = 0) →
          (toList res.1.root).length = (toList t.root).length)) ∧
    ((Balanced t.root ∨ ∃ x ∈ toList t.root, t.cmp k x = 0) →
      ∃ res, avlinsert t k = some res) := by
  constructor
  · intro res h
    obtain ⟨fix, hi⟩ := avlinsert_some t k res h
    have hs := (insert_spec t.cmp hc k t.root none _ ho hi).1
    simp only at hs
    have hp : (toList res.1.root).Perm
        (k :: (toList t.root).filter (fun x => decide (t.cmp k x ≠ 0))) := by
      rw [hs]
      exact List.perm_middle.trans (List.Perm.cons k (filter_split_perm t.cmp k _))
    refine ⟨hs, hp, ?_, ?_⟩
    · intro hne
      have hf : (toList t.root).filter (fun x => decide (t.cmp k x ≠ 0)) = toList t.root :=
        filter_all (fun x hx => by simpa using hne x hx)
      rw [hp.length_eq, hf]
      simp
    · intro hex
      have := filter_ne_length t.cmp hc k _ ho hex
      rw [hp.length_eq]
      simpa using this
  · rintro (hb | hex)
    · obtain ⟨fix, t', old', hi, -, -⟩ := insert_balanced t.cmp k t.root none hb
      exact ⟨_, avlinsert_of_insert t k fix t' old' hi⟩
    · obtain ⟨t', q, hi⟩ := insert_displace t.cmp hc k t.root none ho hex
      exact ⟨_, avlinsert_of_insert t k 0 t' (some q) hi⟩

/-- Witness for C6: inserting 50 into the five-node tree gives six nodes. -/
theorem insert_set_semantics_witness :
    TotalOrder (intTree tree5).cmp ∧ Ordered (intTree tree5).cmp (intTree tree5).root ∧
      ∃ res, avlinsert (intTree tree5) 50 = some res :=
  ⟨cmpInt_total, by simp [Ordered, toList, intTree, tree5, leaf, cmpInt],
    (insert_set_semantics (intTree tree5) 50 cmpInt_total
      (by simp [Ordered, toList, intTree, tree5, leaf, cmpInt])).2
      (Or.inl (by simp [Balanced, height, intTree, tree5, leaf]))⟩

/-- C7: for a total-order comparator and a strictly ascending tree,
the nodes reachable after a completed `avldelete` are the nodes before without
the one node equal to `k`, each other node once and in its place; the returned
node is no longer reachable.  The call completes whenever the tree satisfies
the balance invariant or holds no node equal to `k`. -/
theorem delete_set_semantics (t : Bsttree α) (k : α) (hc : TotalOrder t.cmp)
    (ho : Ordered t.cmp t.root) :
    (∀ res, avldelete t k = some res →
      toList res.1.root = (toList t.root).filter (fun x => decide (t.cmp k x ≠ 0)) ∧
        (∀ q, res.2 = some q → q ∈ toList t.root ∧ q ∉ toList res.1.root) ∧
        ((∃ x ∈ toList t.root, t.cmp k x = 0) →
          (toList res.1.root).length + 1 = (toList t.root).length) ∧
        ((∀ x ∈ toList t.root, t.cmp k x ≠ 0) → toList res.1.root = toList t.root)) ∧
    ((Balanced t.root ∨ ∀ x ∈ toList t.root, t.cmp k x ≠ 0) →
      ∃ res, avldelete t k = some res) := by
  constructor
  · intro res h
    obtain ⟨fix, hi⟩ := avldelete_some t k res h
    obtain ⟨hs, hold⟩ := delete_spec t.cmp hc k t.root none _ ho hi
    simp only at hs hold
    refine ⟨hs, ?_, ?_, ?_⟩
    · intro q hq
      rcases hold with ⟨h1, -⟩ | ⟨x, hx, hkx, h1⟩
      · rw [h1] at hq; cases hq
      · rw [h1] at hq
        cases hq
        refine ⟨hx, ?_⟩
        rw [hs]
        intro hmem
        have := (List.mem_filter.mp hmem).2
        simp [hkx] at this
    · intro hex
      rw [hs]
      exact filter_ne_length t.cmp hc k _ ho hex
    · intro hne
      rw [hs]
      exact filter_all (fun x hx => by simpa using hne x hx)
  · rintro (hb | hne)
    · obtain ⟨fix, t', old', hi, -, -⟩ := delete_balanced t.cmp k t.root none hb
      exact ⟨_, avldelete_of_delete t k fix t' old' hi⟩
    · exact ⟨_, avldelete_of_delete t k 0 t.root none
        (delete_noMatch t.cmp k t.root none (noMatchOnPath_of_absent t.cmp k t.root hne))⟩

/-- Witness for C7: deleting 20 from the five-node tree. -/
theorem delete_set_semantics_witness :
    TotalOrder (intTree tree5).cmp ∧ Ordered (intTree tree5).cmp (intTree tree5).root ∧
      ∃ res, avldelete (intTree tree5) 20 = some res :=
  ⟨cmpInt_total, by simp [Ordered, toList, intTree, tree5, leaf, cmpInt],
    (delete_set_semantics (intTree tree5) 20 cmpInt_total
      (by simp [Ordered, toList, intTree, tree5, leaf, cmpInt])).2
      (Or.inl (by simp [Balanced, height, intTree, tree5, leaf]))⟩

/-- C8: for a total-order comparator and a strictly ascending tree,
a completed `avlinsert` returns the resident node equal to `k` when there is
one and absent exactly when there is none, and `k` is linked into the tree;
the call completes and returns the resident whenever one is equal to `k`, and
completes whenever the tree satisfies the balance invariant.  On the empty
tree it returns absent and `k` is the root with no children and balance 0. -/
theorem insert_return_value (t : Bsttree α) (k : α) (hc : TotalOrder t.cmp)
    (ho : Ordered t.cmp t.root) :
    (∀ res, avlinsert t k = some res →
      (∀ q, res.2 = some q → q ∈ toList t.root ∧ t.cmp k q = 0) ∧
        (res.2 = none ↔ ∀ x ∈ toList t.root, t.cmp k x ≠ 0) ∧
        k ∈ toList res.1.root) ∧
    ((∃ x ∈ toList t.root, t.cmp k x = 0) →
      ∃ res q, avlinsert t k = some res ∧ res.2 = some q ∧ q ∈ toList t.root ∧
        t.cmp k q = 0) ∧
    (Balanced t.root → ∃ res, avlinsert t k = some res) ∧
    avlinsert (bstcreateavl t.cmp) k =
      some ({ cmp := t.cmp, root := Bst.node Bst.nil k 0 Bst.nil }, none) := by
  have main : ∀ res, avlinsert t k = some res →
      (∀ q, res.2 = some q → q ∈ toList t.root ∧ t.cmp k q = 0) ∧
        (res.2 = none ↔ ∀ x ∈ toList t.root, t.cmp k x ≠ 0) ∧
        k ∈ toList res.1.root := by
    intro res h
    obtain ⟨fix, hi⟩ := avlinsert_some t k res h
    obtain ⟨hs, hold⟩ := insert_spec t.cmp hc k t.root none _ ho hi
    simp only at hs hold
    refine ⟨?_, ?_, by rw [hs]; simp⟩
    · intro q hq
      rcases hold with ⟨h1, -⟩ | ⟨x, hx, hkx, h1⟩
      · rw [h1] at hq; cases hq
      · rw [h1] at hq
        cases hq
        exact ⟨hx, hkx⟩
    · rcases hold with ⟨h1, h2⟩ | ⟨x, hx, hkx, h1⟩
      · exact ⟨fun _ => h2, fun _ => h1⟩
      · constructor
        · intro h0
          rw [h1] at h0
          cases h0
        · intro hne
          exact absurd hkx (hne x hx)
  refine ⟨main, ?_, ?_, rfl⟩
  · intro hex
    obtain ⟨t', q, hi⟩ := insert_displace t.cmp hc k t.root none ho hex
    have h := avlinsert_of_insert t k 0 t' (some q) hi
    exact ⟨_, q, h, rfl, (main _ h).1 q rfl⟩
  · intro hb
    obtain ⟨fix, t', old', hi, -, -⟩ := insert_balanced t.cmp k t.root none hb
    exact ⟨_, avlinsert_of_insert t k fix t' old' hi⟩

/-- Witness for C8: inserting a second record of key 30 (tag 1) into the tree of
the records 10, 20, 30 (tag 0) returns the resident record of key 30, not the
inserted one. -/
theorem insert_return_value_witness :
    TotalOrder ({ cmp := cmpKey, root := keyTree3 } : Bsttree (Int × Nat)).cmp ∧
      Ordered cmpKey keyTree3 ∧
      avlinsert { cmp := cmpKey, root := keyTree3 } (30, 1) =
        some ({ cmp := cmpKey,
                root := Bst.node (Bst.node Bst.nil (10, 0) 0 Bst.nil) (20, 0) 0
                  (Bst.node Bst.nil (30, 1) 0 Bst.nil) }, some (30, 0)) ∧
      ∃ res q, avlinsert { cmp := cmpKey, root := keyTree3 } (30, 1) = some res ∧
        res.2 = some q ∧ q ∈ toList keyTree3 ∧ cmpKey (30, 1) q = 0 :=
  ⟨cmpKey_total, by simp [Ordered, toList, keyTree3, cmpKey], rfl,
    (insert_return_value { cmp := cmpKey, root := keyTree3 } (30, 1) cmpKey_total
      (by simp [Ordered, toList, keyTree3, cmpKey])).2.1
      ⟨(30, 0), by simp [toList, keyTree3], by simp [cmpKey]⟩⟩

/-- C9: for a total-order comparator and a strictly ascending tree,
a completed `avldelete` returns the resident node equal to `k` when there is
one and absent exactly when there is none; the call completes whenever the tree
satisfies the balance invariant or holds no node equal to `k`.  On the empty
tree it returns absent; on a single node equal to `k` it returns that node and
leaves the tree empty. -/
theorem delete_return_value (t : Bsttree α) (k : α) (hc : TotalOrder t.cmp)
    (ho : Ordered t.cmp t.root) :
    (∀ res, avldelete t k = some res →
      (∀ q, res.2 = some q → q ∈ toList t.root ∧ t.cmp k q = 0) ∧
        ((∃ x ∈ toList t.root, t.cmp k x = 0) → ∃ q, res.2 = some q) ∧
        (res.2 = none ↔ ∀ x ∈ toList t.root, t.cmp k x ≠ 0)) ∧
    ((Balanced t.root ∨ ∀ x ∈ toList t.root, t.cmp k x ≠ 0) →
      ∃ res, avldelete t k = some res) ∧
    avldelete (bstcreateavl t.cmp) k = some (bstcreateavl t.cmp, none) ∧
    (∀ q b, t.cmp k q = 0 →
      avldelete { cmp := t.cmp, root := Bst.node Bst.nil q b Bst.nil } k =
        some ({ cmp := t.cmp, root := Bst.nil }, some q)) := by
  refine ⟨?_, ?_, rfl, ?_⟩
  · intro res h
    obtain ⟨fix, hi⟩ := avldelete_some t k res h
    obtain ⟨-, hold⟩ := delete_spec t.cmp hc k t.root none _ ho hi
    simp only at hold
    refine ⟨?_, ?_, ?_⟩
    · intro q hq
      rcases hold with ⟨h1, -⟩ | ⟨x, hx, hkx, h1⟩
      · rw [h1] at hq; cases hq
      · rw [h1] at hq
        cases hq
        exact ⟨hx, hkx⟩
    · rintro ⟨x, hx, hkx⟩
      rcases hold with ⟨-, h2⟩ | ⟨y, -, -, h1⟩
      · exact absurd hkx (h2 x hx)
      · exact ⟨y, h1⟩
    · rcases hold with ⟨h1, h2⟩ | ⟨x, hx, hkx, h1⟩
      · exact ⟨fun _ => h2, fun _ => h1⟩
      · constructor
        · intro h0
          rw [h1] at h0
          cases h0
        · intro hne
          exact absurd hkx (hne x hx)
  · rintro (hb | hne)
    · obtain ⟨fix, t', old', hi, -, -⟩ := delete_balanced t.cmp k t.root none hb
      exact ⟨_, avldelete_of_delete t k fix t' old' hi⟩
    · exact ⟨_, avldelete_of_delete t k 0 t.root none
        (delete_noMatch t.cmp k t.root none (noMatchOnPath_of_absent t.cmp k t.root hne))⟩
  · intro q b hk
    simp [avldelete, delete_eq_nil t.cmp Bst.nil q b k none hk]

/-- Witness for C9: deleting 40 from the five-node tree. -/
theorem delete_return_value_witness :
    TotalOrder (intTree tree5).cmp ∧ Ordered (intTree tree5).cmp (intTree tree5).root ∧
      ∃ res, avldelete (intTree tree5) 40 = some res :=
  ⟨cmpInt_total, by simp [Ordered, toList, intTree, tree5, leaf, cmpInt],
    (delete_return_value (intTree tree5) 40 cmpInt_total
      (by simp [Ordered, toList, intTree, tree5, leaf, cmpInt])).2.1
      (Or.inl (by simp [Balanced, height, intTree, tree5, leaf]))⟩

/-- C10: for every comparator and every tree with no node equal to `k` on the
search path of `k` (in particular every tree holding no node equal to `k`),
`avldelete` returns absent and leaves the tree as it was: the same root, the
same children and the same balance at every node; the recursive `delete`
reports an unchanged height, so no `deletefix` runs. -/
theorem delete_absent_no_mutation (t : Bsttree α) (k : α)
    (h : NoMatchOnPath t.cmp t.root k ∨ ∀ x ∈ toList t.root, t.cmp k x ≠ 0) :
    avldelete t k = some (t, none) ∧
      ∀ old, delete t.cmp t.root k old = some (0, t.root, old) := by
  have hp : NoMatchOnPath t.cmp t.root k := by
    rcases h with h | h
    · exact h
    · exact noMatchOnPath_of_absent t.cmp k t.root h
  refine ⟨?_, fun old => delete_noMatch t.cmp k t.root old hp⟩
  exact avldelete_of_delete t k 0 t.root none (delete_noMatch t.cmp k t.root none hp)

/-- Witness for C10: deleting 26 from the five-node tree. -/
theorem delete_absent_no_mutation_witness :
    (∀ x ∈ toList (intTree tree5).root, (intTree tree5).cmp 26 x ≠ 0) ∧
      avldelete (intTree tree5) 26 = some (intTree tree5, none) :=
  ⟨by simp [toList, intTree, tree5, leaf, cmpInt],
    (delete_absent_no_mutation (intTree tree5) 26
      (Or.inr (by simp [toList, intTree, tree5, leaf, cmpInt]))).1⟩

/-! ## Displacement, round trips and the instrumented insert -/

theorem lookup_lt (cmp : α → α → Int) (l : Bst α) (q : α) (b : Int) (r : Bst α) (k : α)
    (h : cmp k q < 0) : lookup cmp (Bst.node l q b r) k = lookup cmp l k := by
  simp [lookup, h]

theorem lookup_gt (cmp : α → α → Int) (l : Bst α) (q : α) (b : Int) (r : Bst α) (k : α)
    (h : 0 < cmp k q) : lookup cmp (Bst.node l q b r) k = lookup cmp r k := by
  simp [lookup, h, not_lt.mpr h.le]

theorem lookup_eq (cmp : α → α → Int) (l : Bst α) (q : α) (b : Int) (r : Bst α) (k : α)
    (h : cmp k q = 0) : lookup cmp (Bst.node l q b r) k = some q := by
  simp [lookup, h]

/-- When the search path of `k` ends at a node `q` equal to `k`, `insert` puts
`k` in the place of `q` and reports an unchanged height at every level. -/
theorem insert_found (cmp : α → α → Int) (k q : α) (t : Bst α) (old : Option α)
    (h : lookup cmp t k = some q) :
    insert cmp t k old = some (0, displace cmp t k, some q) := by
  induction t with
  | nil => simp [lookup] at h
  | node l p b r ihl ihr =>
    rcases lt_trichotomy (cmp k p) 0 with hk | hk | hk
    · rw [lookup_lt cmp l p b r k hk] at h
      rw [insert_lt cmp l p b r k old hk, ihl h]
      simp [displace, hk]
    · rw [lookup_eq cmp l p b r k hk] at h
      simp only [Option.some.injEq] at h
      subst h
      rw [insert_eq cmp l p b r k old hk]
      simp [displace, hk]
    · rw [lookup_gt cmp l p b r k hk] at h
      rw [insert_gt cmp l p b r k old hk, ihr h]
      simp [displace, hk, not_lt.mpr hk.le]

theorem insertT_found (cmp : α → α → Int) (k q : α) (t : Bst α) (old : Option α)
    (h : lookup cmp t k = some q) :
    insertT cmp t k old = some ((0, displace cmp t k, some q), []) := by
  induction t with
  | nil => simp [lookup] at h
  | node l p b r ihl ihr =>
    rcases lt_trichotomy (cmp k p) 0 with hk | hk | hk
    · rw [lookup_lt cmp l p b r k hk] at h
      simp [insertT, sign3, hk, not_lt.mpr hk.le, ihl h, displace]
    · rw [lookup_eq cmp l p b r k hk] at h
      simp only [Option.some.injEq] at h
      subst h
      simp [insertT, sign3, hk, displace]
    · rw [lookup_gt cmp l p b r k hk] at h
      simp [insertT, sign3, hk, not_lt.mpr hk.le, ihr h, displace]

theorem displace_skeleton (cmp : α → α → Int) (k : α) (t : Bst α) :
    skeleton (displace cmp t k) = skeleton t := by
  induction t with
  | nil => rfl
  | node l p b r ihl ihr =>
    simp only [displace]
    split_ifs <;> simp [skeleton, ihl, ihr]

theorem displace_toList (cmp : α → α → Int) (k q : α) (t : Bst α)
    (h : lookup cmp t k = some q) :
    ∃ pre post, toList t = pre ++ q :: post ∧ toList (displace cmp t k) = pre ++ k :: post := by
  induction t with
  | nil => simp [lookup] at h
  | node l p b r ihl ihr =>
    rcases lt_trichotomy (cmp k p) 0 with hk | hk | hk
    · rw [lookup_lt cmp l p b r k hk] at h
      obtain ⟨pre, post, h1, h2⟩ := ihl h
      refine ⟨pre, post ++ p :: toList r, ?_, ?_⟩
      · simp [toList, h1]
      · simp [displace, hk, toList, h2]
    · rw [lookup_eq cmp l p b r k hk] at h
      simp only [Option.some.injEq] at h
      subst h
      exact ⟨toList l, toList r, rfl, by simp [displace, hk, toList]⟩
    · rw [lookup_gt cmp l p b r k hk] at h
      obtain ⟨pre, post, h1, h2⟩ := ihr h
      refine ⟨toList l ++ p :: pre, post, ?_, ?_⟩
      · simp [toList, h1]
      · simp [displace, hk, not_lt.mpr hk.le, toList, h2]

/-- C11: when the search path of `k` ends at a resident `q` that compares equal
to `k`, `avlinsert` returns `q` and leaves the tree of the displacement rule:
the same shape and the same balance at every position, the same node at every
position except that `k` stands where `q` stood; the recursive `insert` reports
an unchanged height and no `insertfix` runs. -/
theorem displacement_in_place (t : Bsttree α) (k q : α)
    (h : lookup t.cmp t.root k = some q) :
    avlinsert t k = some ({ t with root := displace t.cmp t.root k }, some q) ∧
      (∀ old, insert t.cmp t.root k old = some (0, displace t.cmp t.root k, some q)) ∧
      (∀ old, insertT t.cmp t.root k old =
        some ((0, displace t.cmp t.root k, some q), [])) ∧
      skeleton (displace t.cmp t.root k) = skeleton t.root ∧
      ∃ pre post, toList t.root = pre ++ q :: post ∧
        toList (displace t.cmp t.root k) = pre ++ k :: post :=
  ⟨avlinsert_of_insert t k 0 _ (some q) (insert_found t.cmp k q t.root none h),
    fun old => insert_found t.cmp k q t.root old h,
    fun old => insertT_found t.cmp k q t.root old h,
    displace_skeleton t.cmp k t.root,
    displace_toList t.cmp k q t.root h⟩

/-- Witness for C11: inserting a second 30 into the five-node tree. -/
theorem displacement_in_place_witness :
    lookup (intTree tree5).cmp (intTree tree5).root 30 = some 30 ∧
      avlinsert (intTree tree5) 30 = some (intTree tree5, some 30) :=
  ⟨rfl, (displacement_in_place (intTree tree5) 30 30 rfl).1⟩

theorem avlinsert_cmp (t : Bsttree α) (k : α) (res : Bsttree α × Option α)
    (h : avlinsert t k = some res) : res.1.cmp = t.cmp := by
  unfold avlinsert at h
  cases hi : insert t.cmp t.root k none with
  | none => simp [hi] at h
  | some p =>
    obtain ⟨fix, root, old⟩ := p
    simp only [hi, Option.some.injEq] at h
    subst h
    rfl

theorem avldelete_cmp (t : Bsttree α) (k : α) (res : Bsttree α × Option α)
    (h : avldelete t k = some res) : res.1.cmp = t.cmp := by
  unfold avldelete at h
  cases hr : t.root with
  | nil =>
    simp only [hr, Option.some.injEq] at h
    subst h
    rfl
  | node l q b r =>
    simp only [hr] at h
    cases hi : delete t.cmp (Bst.node l q b r) k none with
    | none => simp [hi] at h
    | some p =>
      obtain ⟨fix, root, old⟩ := p
      simp only [hi, Option.some.injEq] at h
      subst h
      rfl

/-- C12: for a total-order comparator and a strictly ascending tree,
after every completed `avlinsert` of `x` the call `avllookup` of `x` returns a
node equal to `x` (the node `x` itself), never absent; the insert completes
whenever the tree also satisfies the balance invariant or holds a node equal
to `x`. -/
theorem insert_lookup_round_trip (t : Bsttree α) (x : α) (hc : TotalOrder t.cmp)
    (ho : Ordered t.cmp t.root) :
    (∀ res, avlinsert t x = some res →
      ∃ h, avllookup res.1 x = some h ∧ t.cmp x h = 0 ∧ h = x) ∧
    ((Balanced t.root ∨ ∃ y ∈ toList t.root, t.cmp x y = 0) →
      ∃ res, avlinsert t x = some res) := by
  constructor
  · intro res h
    obtain ⟨fix, hi⟩ := avlinsert_some t x res h
    have hs := (insert_spec t.cmp hc x t.root none _ ho hi).1
    simp only at hs
    have hord : Ordered t.cmp res.1.root := by
      unfold Ordered
      rw [hs]
      exact pairwise_insert t.cmp hc x _ ho
    have hmem : x ∈ toList res.1.root := by rw [hs]; simp
    unfold avllookup
    rw [avlinsert_cmp t x res h]
    cases hl : lookup t.cmp res.1.root x with
    | none =>
      exact absurd (hc.refl x) (lookup_none_absent t.cmp hc x res.1.root hord hl x hmem)
    | some y =>
      obtain ⟨hy, hxy⟩ := lookup_some t.cmp x res.1.root y hl
      have := pairwise_unique t.cmp hc _ hord x hmem y hy hxy
      exact ⟨y, rfl, hxy, this.symm⟩
  · rintro (hb | hex)
    · obtain ⟨fix, t', old', hi, -, -⟩ := insert_balanced t.cmp x t.root none hb
      exact ⟨_, avlinsert_of_insert t x fix t' old' hi⟩
    · obtain ⟨t', q, hi⟩ := insert_displace t.cmp hc x t.root none ho hex
      exact ⟨_, avlinsert_of_insert t x 0 t' (some q) hi⟩

/-- Witness for C12: inserting 50 into the five-node tree and looking it up. -/
theorem insert_lookup_round_trip_witness :
    TotalOrder (intTree tree5).cmp ∧ Ordered (intTree tree5).cmp (intTree tree5).root ∧
      ∃ res, avlinsert (intTree tree5) 50 = some res :=
  ⟨cmpInt_total, by simp [Ordered, toList, intTree, tree5, leaf, cmpInt],
    (insert_lookup_round_trip (intTree tree5) 50 cmpInt_total
      (by simp [Ordered, toList, intTree, tree5, leaf, cmpInt])).2
      (Or.inl (by simp [Balanced, height, intTree, tree5, leaf]))⟩

/-- C13: for a total-order comparator and a strictly ascending tree,
after every completed `avldelete` of `x` the call `avllookup` of `x` returns
absent; the delete completes whenever the tree also satisfies the balance
invariant or holds no node equal to `x`. -/
theorem delete_lookup_round_trip (t : Bsttree α) (x : α) (hc : TotalOrder t.cmp)
    (ho : Ordered t.cmp t.root) :
    (∀ res, avldelete t x = some res → avllookup res.1 x = none) ∧
    ((Balanced t.root ∨ ∀ y ∈ toList t.root, t.cmp x y ≠ 0) →
      ∃ res, avldelete t x = some res) := by
  constructor
  · intro res h
    obtain ⟨fix, hi⟩ := avldelete_some t x res h
    have hs := (delete_spec t.cmp hc x t.root none _ ho hi).1
    simp only at hs
    unfold avllookup
    rw [avldelete_cmp t x res h]
    apply lookup_none_of_absent
    intro y hy
    rw [hs] at hy
    simpa using (List.mem_filter.mp hy).2
  · rintro (hb | hne)
    · obtain ⟨fix, t', old', hi, -, -⟩ := delete_balanced t.cmp x t.root none hb
      exact ⟨_, avldelete_of_delete t x fix t' old' hi⟩
    · exact ⟨_, avldelete_of_delete t x 0 t.root none
        (delete_noMatch t.cmp x t.root none (noMatchOnPath_of_absent t.cmp x t.root hne))⟩

/-- Witness for C13: deleting 30 from the five-node tree and looking it up. -/
theorem delete_lookup_round_trip_witness :
    TotalOrder (intTree tree5).cmp ∧ Ordered (intTree tree5).cmp (intTree tree5).root ∧
      avllookup (intTree (Bst.node (leaf 10) 20 1 (Bst.node (leaf 25) 40 (-1) Bst.nil))) 30
        = none :=
  ⟨cmpInt_total, by simp [Ordered, toList, intTree, tree5, leaf, cmpInt],
    (delete_lookup_round_trip (intTree tree5) 30 cmpInt_total
      (by simp [Ordered, toList, intTree, tree5, leaf, cmpInt])).1
      (intTree (Bst.node (leaf 10) 20 1 (Bst.node (leaf 25) 40 (-1) Bst.nil)), some 30) rfl⟩

/-! ## The branches taken by `insertfix` -/

theorem insertfixBranch_pos (l : Bst α) (n : α) (b : Int) (r : Bst α) :
    insertfixBranch 1 (Bst.node l n b r) =
      if b = 0 then some FixBranch.grow
      else if b = -1 then some FixBranch.absorb
      else match r with
        | Bst.nil => none
        | Bst.node _ _ rb _ => if rb = 1 then some FixBranch.single else some FixBranch.double := by
  by_cases h0 : b = 0
  · simp [insertfixBranch, getbalance, h0]
  by_cases h1 : b = -1
  · simp [insertfixBranch, getbalance, h1]
  cases r with
  | nil => simp [insertfixBranch, getbalance, getc, h0, h1]
  | node rl rn rb rr =>
    by_cases h2 : rb = 1 <;> simp [insertfixBranch, getbalance, getc, h0, h1, h2]

theorem insertfixBranch_neg (l : Bst α) (n : α) (b : Int) (r : Bst α) :
    insertfixBranch (-1) (Bst.node l n b r) =
      if b = 0 then some FixBranch.grow
      else if b = 1 then some FixBranch.absorb
      else match l with
        | Bst.nil => none
        | Bst.node _ _ lb _ =>
          if lb = -1 then some FixBranch.single else some FixBranch.double := by
  by_cases h0 : b = 0
  · simp [insertfixBranch, getbalance, h0]
  by_cases h1 : b = 1
  · simp [insertfixBranch, getbalance, h1]
  cases l with
  | nil => simp [insertfixBranch, getbalance, getc, h0, h1]
  | node ll ln lb lr =>
    by_cases h2 : lb = -1 <;> simp [insertfixBranch, getbalance, getc, h0, h1, h2]

/-- Whenever `insertfix` completes it has taken one of the four branches, and it
returns 1 exactly in the branch that found balance `0`. -/
theorem insertfix_branch (a : Int) (ha : a = 1 ∨ a = -1) (s : Bst α) (f : Int) (s' : Bst α)
    (h : insertfix a s = some (f, s')) :
    ∃ e, insertfixBranch a s = some e ∧
      ((e = FixBranch.grow ∧ f = 1) ∨ (e ≠ FixBranch.grow ∧ f = 0)) := by
  rcases ha with rfl | rfl
  · cases s with
    | nil => simp [insertfix_nil] at h
    | node l n b r =>
      rw [insertfix_pos] at h
      rw [insertfixBranch_pos]
      split_ifs at h ⊢ with h0 h1
      · simp at h; exact ⟨_, rfl, Or.inl ⟨rfl, h.1.symm⟩⟩
      · simp at h; exact ⟨_, rfl, Or.inr ⟨by simp, h.1.symm⟩⟩
      · cases r with
        | nil => simp at h
        | node rl rn rb rr =>
          simp only at h ⊢
          split_ifs at h ⊢ with h2
          · simp at h; exact ⟨_, rfl, Or.inr ⟨by simp, h.1.symm⟩⟩
          · cases rl with
            | nil => simp at h
            | node rll rln rlb rlr =>
              simp at h; exact ⟨_, rfl, Or.inr ⟨by simp, h.1.symm⟩⟩
  · cases s with
    | nil => simp [insertfix_nil] at h
    | node l n b r =>
      rw [insertfix_neg] at h
      rw [insertfixBranch_neg]
      split_ifs at h ⊢ with h0 h1
      · simp at h; exact ⟨_, rfl, Or.inl ⟨rfl, h.1.symm⟩⟩
      · simp at h; exact ⟨_, rfl, Or.inr ⟨by simp, h.1.symm⟩⟩
      · cases l with
        | nil => simp at h
        | node ll ln lb lr =>
          simp only at h ⊢
          split_ifs at h ⊢ with h2
          · simp at h; exact ⟨_, rfl, Or.inr ⟨by simp, h.1.symm⟩⟩
          · cases lr with
            | nil => simp at h
            | node lrl lrn lrb lrr =>
              simp at h; exact ⟨_, rfl, Or.inr ⟨by simp, h.1.symm⟩⟩

theorem insertT_eq (cmp : α → α → Int) (l : Bst α) (q : α) (b : Int) (r : Bst α) (k : α)
    (old : Option α) (h : cmp k q = 0) :
    insertT cmp (Bst.node l q b r) k old = some ((0, Bst.node l k b r, some q), []) := by
  simp [insertT, sign3, h]

theorem insertT_lt (cmp : α → α → Int) (l : Bst α) (q : α) (b : Int) (r : Bst α) (k : α)
    (old : Option α) (h : cmp k q < 0) :
    insertT cmp (Bst.node l q b r) k old =
      match insertT cmp l k old with
      | none => none
      | some ((fix, l', old'), tr) =>
        if fix ≠ 0 then
          match insertfix (-1) (Bst.node l' q b r), insertfixBranch (-1) (Bst.node l' q b r) with
          | some (f, t), some e => some ((f, t, old'), tr ++ [e])
          | _, _ => none
        else some ((0, Bst.node l' q b r, old'), tr) := by
  simp only [insertT, sign3, h, not_lt.mpr h.le]
  rcases insertT cmp l k old with _ | ⟨⟨fix, l', old'⟩, tr⟩
  · rfl
  · by_cases hf : fix = 0
    · simp [hf]
    · rcases hx : insertfix (-1) (Bst.node l' q b r) with _ | ⟨f, t⟩ <;>
        rcases hy : insertfixBranch (-1) (Bst.node l' q b r) with _ | e <;>
        simp [hf, hx, hy]

theorem insertT_gt (cmp : α → α → Int) (l : Bst α) (q : α) (b : Int) (r : Bst α) (k : α)
    (old : Option α) (h : 0 < cmp k q) :
    insertT cmp (Bst.node l q b r) k old =
      match insertT cmp r k old with
      | none => none
      | some ((fix, r', old'), tr) =>
        if fix ≠ 0 then
          match insertfix 1 (Bst.node l q b r'), insertfixBranch 1 (Bst.node l q b r') with
          | some (f, t), some e => some ((f, t, old'), tr ++ [e])
          | _, _ => none
        else some ((0, Bst.node l q b r', old'), tr) := by
  simp only [insertT, sign3, h]
  rcases insertT cmp r k old with _ | ⟨⟨fix, r', old'⟩, tr⟩
  · rfl
  · by_cases hf : fix = 0
    · simp [hf]
    · rcases hx : insertfix 1 (Bst.node l q b r') with _ | ⟨f, t⟩ <;>
        rcases hy : insertfixBranch 1 (Bst.node l q b r') with _ | e <;>
        simp [hf, hx, hy]

/-- The instrumented insert computes what `insert` computes. -/
theorem insertT_fst (cmp : α → α → Int) (k : α) (t : Bst α) (old : Option α) :
    (insertT cmp t k old).map Prod.fst = insert cmp t k old := by
  induction t generalizing old with
  | nil => rfl
  | node l q b r ihl ihr =>
    rcases lt_trichotomy (cmp k q) 0 with hk | hk | hk
    · rw [insertT_lt cmp l q b r k old hk, insert_lt cmp l q b r k old hk, ← ihl old]
      cases hi : insertT cmp l k old with
      | none => rfl
      | some p =>
        obtain ⟨⟨fix, l', old'⟩, tr⟩ := p
        simp only [Option.map_some']
        split_ifs with hf
        · cases hx : insertfix (-1) (Bst.node l' q b r) with
          | none => simp
          | some fs =>
            obtain ⟨f, s'⟩ := fs
            obtain ⟨e, he, -⟩ := insertfix_branch (-1) (Or.inr rfl) _ f s' hx
            simp [he]
        · rfl
    · rw [insertT_eq cmp l q b r k old hk, insert_eq cmp l q b r k old hk]
      rfl
    · rw [insertT_gt cmp l q b r k old hk, insert_gt cmp l q b r k old hk, ← ihr old]
      cases hi : insertT cmp r k old with
      | none => rfl
      | some p =>
        obtain ⟨⟨fix, r', old'⟩, tr⟩ := p
        simp only [Option.map_some']
        split_ifs with hf
        · cases hx : insertfix 1 (Bst.node l q b r') with
          | none => simp
          | some fs =>
            obtain ⟨f, s'⟩ := fs
            obtain ⟨e, he, -⟩ := insertfix_branch 1 (Or.inl rfl) _ f s' hx
            simp [he]
        · rfl

/-- Shape of the list of branches of one insert: a run of `grow` while the
height keeps increasing, closed by at most one other branch, after which the
height is reported unchanged and no ancestor calls `insertfix`. -/
theorem insertT_trace (cmp : α → α → Int) (k : α) (t : Bst α) (old : Option α)
    (res : Int × Bst α × Option α) (tr : List FixBranch)
    (h : insertT cmp t k old = some (res, tr)) :
    (res.1 = 1 ∧ ∃ n, tr = List.replicate n FixBranch.grow) ∨
      (res.1 = 0 ∧ tr = []) ∨
      (res.1 = 0 ∧ ∃ n e, e ≠ FixBranch.grow ∧ tr = List.replicate n FixBranch.grow ++ [e]) := by
  induction t generalizing old res tr with
  | nil =>
    simp only [insertT, Option.some.injEq, Prod.mk.injEq] at h
    obtain ⟨rfl, rfl⟩ := h
    exact Or.inl ⟨rfl, 0, rfl⟩
  | node l q b r ihl ihr =>
    have step : ∀ (a : Int), (a = 1 ∨ a = -1) → ∀ (s : Bst α) (fix : Int) (old' : Option α)
        (tr0 : List FixBranch),
        ((fix = 1 ∧ ∃ n, tr0 = List.replicate n FixBranch.grow) ∨
          (fix = 0 ∧ tr0 = []) ∨
          (fix = 0 ∧ ∃ n e, e ≠ FixBranch.grow ∧
            tr0 = List.replicate n FixBranch.grow ++ [e])) →
        (if fix ≠ 0 then
            match insertfix a s, insertfixBranch a s with
            | some (f, t), some e => some ((f, t, old'), tr0 ++ [e])
            | _, _ => none
          else some ((0, s, old'), tr0)) = some (res, tr) →
        (res.1 = 1 ∧ ∃ n, tr = List.replicate n FixBranch.grow) ∨
          (res.1 = 0 ∧ tr = []) ∨
          (res.1 = 0 ∧ ∃ n e, e ≠ FixBranch.grow ∧
            tr = List.replicate n FixBranch.grow ++ [e]) := by
      intro a ha s fix old' tr0 hind hres
      split_ifs at hres with hf
      · cases hx : insertfix a s with
        | none => simp [hx] at hres
        | some fs =>
          obtain ⟨f, s'⟩ := fs
          obtain ⟨e, he, hef⟩ := insertfix_branch a ha _ f s' hx
          simp only [hx, he, Option.some.injEq, Prod.mk.injEq] at hres
          obtain ⟨rfl, rfl⟩ := hres
          have hn : ∃ n, tr0 = List.replicate n FixBranch.grow := by
            rcases hind with ⟨-, hn⟩ | ⟨h0, -⟩ | ⟨h0, -⟩
            · exact hn
            · exact absurd h0 hf
            · exact absurd h0 hf
          obtain ⟨n, rfl⟩ := hn
          rcases hef with ⟨rfl, rfl⟩ | ⟨hne, rfl⟩
          · left
            refine ⟨rfl, n + 1, ?_⟩
            rw [List.replicate_succ']
          · right; right
            exact ⟨rfl, n, e, hne, rfl⟩
      · simp only [Option.some.injEq, Prod.mk.injEq] at hres
        obtain ⟨rfl, rfl⟩ := hres
        have hf0 : fix = 0 := by simpa using hf
        rcases hind with ⟨h1, -⟩ | ⟨-, h2⟩ | ⟨-, h3⟩
        · omega
        · exact Or.inr (Or.inl ⟨rfl, h2⟩)
        · exact Or.inr (Or.inr ⟨rfl, h3⟩)
    rcases lt_trichotomy (cmp k q) 0 with hk | hk | hk
    · rw [insertT_lt cmp l q b r k old hk] at h
      cases hi : insertT cmp l k old with
      | none => simp [hi] at h
      | some p =>
        obtain ⟨⟨fix, l', old'⟩, tr0⟩ := p
        simp only [hi] at h
        exact step (-1) (Or.inr rfl) _ fix old' tr0 (ihl old _ tr0 hi) h
    · rw [insertT_eq cmp l q b r k old hk] at h
      simp only [Option.some.injEq, Prod.mk.injEq] at h
      obtain ⟨rfl, rfl⟩ := h
      exact Or.inr (Or.inl ⟨rfl, rfl⟩)
    · rw [insertT_gt cmp l q b r k old hk] at h
      cases hi : insertT cmp r k old with
      | none => simp [hi] at h
      | some p =>
        obtain ⟨⟨fix, r', old'⟩, tr0⟩ := p
        simp only [hi] at h
        exact step 1 (Or.inl rfl) _ fix old' tr0 (ihr old _ tr0 hi) h

theorem replicate_grow_tail (n : Nat) (e0 : FixBranch) (pre : List FixBranch) (e : FixBranch)
    (post : List FixBranch)
    (h : List.replicate n FixBranch.grow ++ [e0] = pre ++ e :: post)
    (he : e ≠ FixBranch.grow) : post = [] := by
  induction n generalizing pre with
  | zero =>
    cases pre with
    | nil =>
      simp only [List.replicate_zero, List.nil_append, List.cons.injEq] at h
      exact h.2.symm
    | cons p pre' =>
      simp only [List.replicate_zero, List.nil_append, List.cons_append, List.cons.injEq] at h
      have := h.2
      simp at this
  | succ n ih =>
    cases pre with
    | nil =>
      simp only [List.replicate_succ, List.cons_append, List.nil_append, List.cons.injEq] at h
      exact absurd h.1.symm he
    | cons p pre' =>
      simp only [List.replicate_succ, List.cons_append, List.cons.injEq] at h
      exact ih pre' h.2

/-- C18: on a tree satisfying the balance invariant, `avlinsert` completes, takes
a rotating branch of `insertfix` (`singlerot` or `doublerot`) at no more than
one ancestor, and a rotating branch is the last `insertfix` call of the insert:
it returns height-unchanged, so no ancestor above it calls `insertfix`. -/
theorem one_rotation_per_insert (t : Bsttree α) (k : α) (hb : Balanced t.root) :
    ∃ res tr, insertT t.cmp t.root k none = some (res, tr) ∧
      avlinsert t k = some ({ t with root := res.2.1 }, res.2.2) ∧
      tr.count FixBranch.single + tr.count FixBranch.double ≤ 1 ∧
      ∀ pre e post, tr = pre ++ e :: post → (e = FixBranch.single ∨ e = FixBranch.double) →
        post = [] ∧ res.1 = 0 := by
  obtain ⟨fix, t', old', hi, -, -⟩ := insert_balanced t.cmp k t.root none hb
  have hfst := insertT_fst t.cmp k t.root none
  rw [hi] at hfst
  cases hT : insertT t.cmp t.root k none with
  | none => simp [hT] at hfst
  | some p =>
    obtain ⟨res, tr⟩ := p
    simp only [hT, Option.map_some', Option.some.injEq] at hfst
    subst hfst
    refine ⟨_, tr, rfl, avlinsert_of_insert t k fix t' old' hi, ?_, ?_⟩
    · rcases insertT_trace t.cmp k t.root none _ tr hT with ⟨-, n, rfl⟩ | ⟨-, rfl⟩ |
        ⟨-, n, e, he, rfl⟩
      · simp [List.count_replicate]
      · simp
      · cases e <;> simp [List.count_replicate] at he ⊢
    · intro pre e post htr he
      have hne : e ≠ FixBranch.grow := by
        rcases he with rfl | rfl <;> simp
      rcases insertT_trace t.cmp k t.root none _ tr hT with ⟨-, n, hn⟩ | ⟨-, hn⟩ |
        ⟨h0, n, e0, he0, hn⟩
      · exfalso
        have hmem : e ∈ List.replicate n FixBranch.grow := by
          rw [← hn, htr]; simp
        exact hne (List.eq_of_mem_replicate hmem)
      · rw [hn] at htr
        simp at htr
      · rw [hn] at htr
        exact ⟨replicate_grow_tail n e0 pre e post htr hne, h0⟩

/-- Witness for C18: inserting 50 into the five-node tree rotates once, at the root. -/
theorem one_rotation_per_insert_witness :
    Balanced (intTree tree5).root ∧
      insertT cmpInt tree5 50 none =
        some ((0, Bst.node (Bst.node (leaf 10) 20 0 (leaf 25)) 30 0
          (Bst.node Bst.nil 40 1 (leaf 50)), none),
          [FixBranch.grow, FixBranch.grow, FixBranch.single]) ∧
      ∃ res tr, insertT (intTree tree5).cmp (intTree tree5).root 50 none = some (res, tr) ∧
        avlinsert (intTree tree5) 50 = some ({ intTree tree5 with root := res.2.1 }, res.2.2) ∧
        tr.count FixBranch.single + tr.count FixBranch.double ≤ 1 ∧
        ∀ pre e post, tr = pre ++ e :: post →
          (e = FixBranch.single ∨ e = FixBranch.double) → post = [] ∧ res.1 = 0 :=
  ⟨by simp [Balanced, height, intTree, tree5, leaf], rfl,
    one_rotation_per_insert (intTree tree5) 50
      (by simp [Balanced, height, intTree, tree5, leaf])⟩

/-! ## Inserting a node greater than every resident -/

/-- The step `insertfix(1, ·)` when the right subtree, which grew, leans to the
right: the double-rotation branch is not taken. -/
theorem insertfix_pos_spine (l : Bst α) (n : α) (b : Int) (r' : Bst α) (h0 : Nat)
    (hl : Balanced l) (hr : Balanced r') (hh : height r' = h0 + 1)
    (hb : b = (h0 : Int) - (height l : Int)) (hb3 : b = -1 ∨ b = 0 ∨ b = 1)
    (hnz : height r' = 1 ∨ rootbal r' = 1) :
    ∃ f s' e, insertfix 1 (Bst.node l n b r') = some (f, s') ∧
      insertfixBranch 1 (Bst.node l n b r') = some e ∧ e ≠ FixBranch.double ∧
      toList s' = toList l ++ n :: toList r' ∧ Balanced s' ∧
      ((f = 0 ∧ height s' = max (height l) h0 + 1) ∨
       (f = 1 ∧ height s' = max (height l) h0 + 2 ∧ rootbal s' = 1)) := by
  rw [insertfix_pos, insertfixBranch_pos]
  split_ifs with h1 h2
  · refine ⟨1, _, _, rfl, rfl, by simp, rfl, ?_, Or.inr ⟨rfl, ?_, rfl⟩⟩
    · simp only [Balanced]; refine ⟨hl, hr, ?_, ?_⟩ <;> first | omega | simp
    · simp only [height]; omega
  · refine ⟨0, _, _, rfl, rfl, by simp, rfl, ?_, Or.inl ⟨rfl, ?_⟩⟩
    · simp only [Balanced]; refine ⟨hl, hr, ?_, ?_⟩ <;> first | omega | simp
    · simp only [height]; omega
  · cases r' with
    | nil => simp [height] at hh
    | node rl rn rb rr =>
      simp only [Balanced, height, rootbal] at hr hh hnz
      obtain ⟨hrl, hrr, hrb, hrb3⟩ := hr
      have h3 : rb = 1 := by omega
      simp only [h3, if_true]
      refine ⟨0, _, _, rfl, rfl, by simp, by simp [toList], ?_, Or.inl ⟨rfl, ?_⟩⟩
      · simp only [Balanced, height]
        refine ⟨⟨hl, hrl, ?_, ?_⟩, hrr, ?_, ?_⟩ <;> first | omega | simp
      · simp only [height]; omega

/-- Inserting a node that compares greater than every node of a balanced tree
appends it to the traversal and never takes the double-rotation branch. -/
theorem insertT_above (cmp : α → α → Int) (k : α) (t : Bst α) (old : Option α)
    (hb : Balanced t) (hk : ∀ x ∈ toList t, 0 < cmp k x) :
    ∃ fix t' tr, insertT cmp t k old = some ((fix, t', old), tr) ∧ Balanced t' ∧
      toList t' = toList t ++ [k] ∧ FixBranch.double ∉ tr ∧
      ((fix = 0 ∧ height t' = height t) ∨
       (fix = 1 ∧ height t' = height t + 1 ∧ (height t' = 1 ∨ rootbal t' = 1))) := by
  induction t with
  | nil =>
    refine ⟨1, Bst.node Bst.nil k 0 Bst.nil, [], rfl, ?_, by simp [toList], by simp,
      Or.inr ⟨rfl, ?_, Or.inl ?_⟩⟩
    · simp [Balanced, height]
    · simp [height]
    · simp [height]
  | node l q b r _ ihr =>
    obtain ⟨hl, hr, hbq, hb3⟩ := hb
    have hq : 0 < cmp k q := hk q (by simp [toList])
    have hkr : ∀ x ∈ toList r, 0 < cmp k x := fun x hx => hk x (by simp [toList, hx])
    obtain ⟨fix, r', tr, hi, hbr, hlist, hnd, hcase⟩ := ihr hr hkr
    rw [insertT_gt cmp l q b r k old hq, hi]
    rcases hcase with ⟨rfl, hh⟩ | ⟨rfl, hh, hnz⟩
    · refine ⟨0, Bst.node l q b r', tr, by simp, ⟨hl, hbr, by omega, hb3⟩, ?_, hnd,
        Or.inl ⟨rfl, ?_⟩⟩
      · simp [toList, hlist]
      · simp only [height]; omega
    · obtain ⟨f, s', e, hf, he, hed, hsl, hbs, hres⟩ :=
        insertfix_pos_spine l q b r' (height r) hl hbr hh hbq hb3 hnz
      refine ⟨f, s', tr ++ [e], by simp [hf, he], hbs, ?_, ?_, ?_⟩
      · rw [hsl]; simp [toList, hlist]
      · simp only [List.mem_append, List.mem_singleton, not_or]
        exact ⟨hnd, fun h => hed h.symm⟩
      · simp only [height]
        rcases hres with ⟨rfl, h1⟩ | ⟨rfl, h1, h2⟩
        · exact Or.inl ⟨rfl, by omega⟩
        · exact Or.inr ⟨rfl, by omega, Or.inr h2⟩

/-- Inserting the nodes of a strictly increasing list into a balanced tree whose
nodes are all smaller: every insert completes and none takes the
double-rotation branch. -/
theorem insertSeq_above (cmp : α → α → Int) (ks : List α) (root : Bst α)
    (hb : Balanced root) (hinc : ks.Pairwise (fun x y => 0 < cmp y x))
    (hk : ∀ y ∈ ks, ∀ x ∈ toList root, 0 < cmp y x) :
    ∃ res, insertSeq { cmp := cmp, root := root } ks = some res ∧
      ∀ tr ∈ res.2.2, FixBranch.double ∉ tr := by
  induction ks generalizing root with
  | nil => exact ⟨_, rfl, by simp⟩
  | cons k ks ih =>
    obtain ⟨hk1, hinc'⟩ := List.pairwise_cons.mp hinc
    obtain ⟨fix, t', tr, hi, hbt, hlist, hnd, -⟩ :=
      insertT_above cmp k root none hb (hk k (by simp))
    have hk' : ∀ y ∈ ks, ∀ x ∈ toList t', 0 < cmp y x := by
      intro y hy x hx
      rw [hlist] at hx
      rcases List.mem_append.mp hx with hx | hx
      · exact hk y (by simp [hy]) x hx
      · simp only [List.mem_singleton] at hx
        subst hx
        exact hk1 y hy
    obtain ⟨res, hres, hall⟩ := ih t' hbt hinc' hk'
    obtain ⟨t'', olds, trs⟩ := res
    refine ⟨(t'', none :: olds, tr :: trs), ?_, ?_⟩
    · simp only [insertSeq, hi, hres]
    · intro x hx
      rcases List.mem_cons.mp hx with rfl | hx
      · exact hnd
      · exact hall x hx

/-- The first three inserts of a strictly increasing sequence: the third one
takes the single-rotation branch. -/
theorem insertT_three (cmp : α → α → Int) (a b c : α) (hba : 0 < cmp b a) (hca : 0 < cmp c a)
    (hcb : 0 < cmp c b) :
    insertT cmp Bst.nil a none = some ((1, Bst.node Bst.nil a 0 Bst.nil, none), []) ∧
    insertT cmp (Bst.node Bst.nil a 0 Bst.nil) b none =
      some ((1, Bst.node Bst.nil a 1 (Bst.node Bst.nil b 0 Bst.nil), none),
        [FixBranch.grow]) ∧
    insertT cmp (Bst.node Bst.nil a 1 (Bst.node Bst.nil b 0 Bst.nil)) c none =
      some ((0, Bst.node (Bst.node Bst.nil a 0 Bst.nil) b 0 (Bst.node Bst.nil c 0 Bst.nil),
        none), [FixBranch.grow, FixBranch.single]) := by
  refine ⟨rfl, ?_, ?_⟩
  · rw [insertT_gt cmp _ a _ _ b none hba]
    simp [insertT, insertfix_pos, insertfixBranch_pos]
  · rw [insertT_gt cmp _ a _ _ c none hca, insertT_gt cmp _ b _ _ c none hcb]
    simp [insertT, insertfix_pos, insertfixBranch_pos]

/-- C19 (amended): inserting strictly increasing keys one after another into an
empty tree completes, takes the single-rotation branch of `insertfix` as soon as
there are three keys (at the third insert, after one balance-0 step), and at no
step takes the double-rotation branch. -/
theorem increasing_inserts (cmp : α → α → Int) (ks : List α)
    (hinc : ks.Pairwise (fun x y => 0 < cmp y x)) :
    ∃ res, insertSeq (bstcreateavl cmp) ks = some res ∧
      (∀ tr ∈ res.2.2, FixBranch.double ∉ tr) ∧
      (3 ≤ ks.length → ∃ tr ∈ res.2.2, FixBranch.single ∈ tr) ∧
      (3 ≤ ks.length → res.2.2[2]? = some [FixBranch.grow, FixBranch.single]) := by
  obtain ⟨res, hres, hnd⟩ :=
    insertSeq_above cmp ks Bst.nil trivial hinc (by simp [toList])
  have both : 3 ≤ ks.length →
      (∃ tr ∈ res.2.2, FixBranch.single ∈ tr) ∧
        res.2.2[2]? = some [FixBranch.grow, FixBranch.single] := by
    intro hlen
    match ks, hinc, hres, hlen with
    | a :: b :: c :: rest, hinc, hres, _ =>
      simp only [List.pairwise_cons, List.mem_cons, forall_eq_or_imp] at hinc
      obtain ⟨⟨hba, hca, -⟩, ⟨hcb, -⟩, -⟩ := hinc
      obtain ⟨h1, h2, h3⟩ := insertT_three cmp a b c hba hca hcb
      simp only [insertSeq, bstcreateavl, h1, h2, h3] at hres
      cases hrest : insertSeq
          { cmp := cmp,
            root := Bst.node (Bst.node Bst.nil a 0 Bst.nil) b 0 (Bst.node Bst.nil c 0 Bst.nil) }
          rest with
      | none => simp [hrest] at hres
      | some p =>
        obtain ⟨t', olds, trs⟩ := p
        simp only [hrest, Option.some.injEq] at hres
        subst hres
        exact ⟨⟨[FixBranch.grow, FixBranch.single], by simp, by simp⟩, by simp⟩
  exact ⟨res, hres, hnd, fun h => (both h).1, fun h => (both h).2⟩

/-- Witness for C19: the keys 1 to 7 in increasing order. -/
theorem increasing_inserts_witness :
    [(1 : Int), 2, 3, 4, 5, 6, 7].Pairwise (fun x y => 0 < cmpInt y x) ∧
      ∃ res, insertSeq (bstcreateavl cmpInt) [1, 2, 3, 4, 5, 6, 7] = some res ∧
        (∀ tr ∈ res.2.2, FixBranch.double ∉ tr) ∧
        (3 ≤ [(1 : Int), 2, 3, 4, 5, 6, 7].length → ∃ tr ∈ res.2.2, FixBranch.single ∈ tr) ∧
        (3 ≤ [(1 : Int), 2, 3, 4, 5, 6, 7].length →
          res.2.2[2]? = some [FixBranch.grow, FixBranch.single]) :=
  ⟨by simp [cmpInt], increasing_inserts cmpInt [1, 2, 3, 4, 5, 6, 7] (by simp [cmpInt])⟩

/-- Counterexample to C19 as stated: there is no strictly increasing sequence of
integer keys whose inserts into an empty tree take both the single-rotation and
the double-rotation branch: the double-rotation branch is never taken. -/
theorem increasing_never_double :
    ¬ ∃ (ks : List Int) (res : Bsttree Int × List (Option Int) × List (List FixBranch)),
      ks.Pairwise (fun x y => x < y) ∧ insertSeq (bstcreateavl cmpInt) ks = some res ∧
        (∃ tr ∈ res.2.2, FixBranch.single ∈ tr) ∧ (∃ tr ∈ res.2.2, FixBranch.double ∈ tr) := by
  rintro ⟨ks, res, hinc, hres, -, tr, htr, hd⟩
  have hinc' : ks.Pairwise (fun x y => 0 < cmpInt y x) :=
    hinc.imp (fun h => by simp only [cmpInt]; omega)
  obtain ⟨res', hres', hnd⟩ :=
    insertSeq_above cmpInt ks Bst.nil trivial hinc' (by simp [toList])
  have heq : res' = res := by
    have : some res' = some res := by rw [← hres', ← hres]; rfl
    exact Option.some.inj this
  subst heq
  exact hnd tr htr hd

/-- C15: with integer keys and the numeric comparator, inserting 10, 20, 30 and
inserting 10, 30, 20 into an empty tree both end in the tree with root 20, left
leaf 10, right leaf 30 and all balances 0; every insert returns absent; the
third insert of the first sequence takes the single-rotation branch of
`insertfix`, the third insert of the second takes the double-rotation branch. -/
theorem rotation_scenarios :
    insertSeq (bstcreateavl cmpInt) [10, 20, 30] =
        some (intTree (Bst.node (Bst.node Bst.nil 10 0 Bst.nil) 20 0
            (Bst.node Bst.nil 30 0 Bst.nil)),
          [none, none, none],
          [[], [FixBranch.grow], [FixBranch.grow, FixBranch.single]]) ∧
      insertSeq (bstcreateavl cmpInt) [10, 30, 20] =
        some (intTree (Bst.node (Bst.node Bst.nil 10 0 Bst.nil) 20 0
            (Bst.node Bst.nil 30 0 Bst.nil)),
          [none, none, none],
          [[], [FixBranch.grow], [FixBranch.grow, FixBranch.double]]) ∧
      avlinsert (bstcreateavl cmpInt) 10 = some (intTree (leaf 10), none) ∧
      avlinsert (intTree (leaf 10)) 20 = some (intTree (Bst.node Bst.nil 10 1 (leaf 20)), none) ∧
      avlinsert (intTree (Bst.node Bst.nil 10 1 (leaf 20))) 30 = some (intTree tree3, none) ∧
      avlinsert (intTree (leaf 10)) 30 = some (intTree (Bst.node Bst.nil 10 1 (leaf 30)), none) ∧
      avlinsert (intTree (Bst.node Bst.nil 10 1 (leaf 30))) 20 = some (intTree tree3, none) :=
  ⟨rfl, rfl, rfl, rfl, rfl, rfl, rfl⟩

/-! ## The height-changed flags and the absence of nil dereferences -/

/-- C16: on a subtree satisfying the balance invariant the recursive `insert`
completes and returns 0 or 1; it returns 1 exactly when the height of the
subtree grew by one and 0 exactly when the height is unchanged. -/
theorem insert_flag_exact (cmp : α → α → Int) (k : α) (t : Bst α) (old : Option α)
    (hb : Balanced t) :
    ∃ fix t' old', insert cmp t k old = some (fix, t', old') ∧ (fix = 0 ∨ fix = 1) ∧
      (fix = 1 ↔ height t' = height t + 1) ∧ (fix = 0 ↔ height t' = height t) ∧
      (height t' = height t ∨ height t' = height t + 1) := by
  obtain ⟨fix, t', old', hi, -, hcase⟩ := insert_balanced cmp k t old hb
  refine ⟨fix, t', old', hi, ?_⟩
  rcases hcase with ⟨rfl, hh⟩ | ⟨rfl, hh, -⟩
  · exact ⟨Or.inl rfl, by constructor <;> intro h <;> omega, by simp [hh], Or.inl hh⟩
  · exact ⟨Or.inr rfl, by simp [hh], by constructor <;> intro h <;> omega, Or.inr hh⟩

/-- Witness for C16: inserting 50 below the right child of the five-node tree. -/
theorem insert_flag_exact_witness :
    Balanced (Bst.node (leaf 25) 30 0 (leaf 40)) ∧
      ∃ fix t' old', insert cmpInt (Bst.node (leaf 25) 30 0 (leaf 40)) 50 none
          = some (fix, t', old') ∧ (fix = 0 ∨ fix = 1) ∧
        (fix = 1 ↔ height t' = height (Bst.node (leaf 25) 30 0 (leaf 40)) + 1) ∧
        (fix = 0 ↔ height t' = height (Bst.node (leaf 25) 30 0 (leaf 40))) ∧
        (height t' = height (Bst.node (leaf 25) 30 0 (leaf 40)) ∨
          height t' = height (Bst.node (leaf 25) 30 0 (leaf 40)) + 1) :=
  ⟨by simp [Balanced, height, leaf],
    insert_flag_exact cmpInt 50 _ none (by simp [Balanced, height, leaf])⟩

/-- C17: on a subtree satisfying the balance invariant the recursive `delete`
completes and returns 1 exactly when the height of the subtree shrank by one
and 0 exactly when it is unchanged; the same holds for `deletemin` on a
non-empty subtree.  In `deletefix` at a node whose heavy side is two higher than
the shrunk side, heavy-child balance 0 returns 0 with the height unchanged, and
heavy-child balance `a` or `-a` returns 1 with the height one less. -/
theorem delete_flag_exact (cmp : α → α → Int) (k : α) (t : Bst α) (old : Option α)
    (hb : Balanced t) :
    (∃ fix t' old', delete cmp t k old = some (fix, t', old') ∧ (fix = 0 ∨ fix = 1) ∧
      (fix = 1 ↔ height t' + 1 = height t) ∧ (fix = 0 ↔ height t' = height t)) ∧
    (t ≠ Bst.nil → ∃ fix t' e, deletemin t = some (fix, t', e) ∧ (fix = 0 ∨ fix = 1) ∧
      (fix = 1 ↔ height t' + 1 = height t) ∧ (fix = 0 ↔ height t' = height t)) ∧
    (∀ (l : Bst α) (n : α) (r : Bst α), Balanced l → Balanced r → height r = height l + 2 →
      ∃ f s', deletefix 1 (Bst.node l n 1 r) = some (f, s') ∧
        (rootbal r = 0 → f = 0 ∧ height s' = height r + 1) ∧
        (rootbal r ≠ 0 → f = 1 ∧ height s' = height r)) ∧
    (∀ (l : Bst α) (n : α) (r : Bst α), Balanced l → Balanced r → height l = height r + 2 →
      ∃ f s', deletefix (-1) (Bst.node l n (-1) r) = some (f, s') ∧
        (rootbal l = 0 → f = 0 ∧ height s' = height l + 1) ∧
        (rootbal l ≠ 0 → f = 1 ∧ height s' = height l)) := by
  refine ⟨?_, ?_, ?_, ?_⟩
  · obtain ⟨fix, t', old', hi, -, hcase⟩ := delete_balanced cmp k t old hb
    refine ⟨fix, t', old', hi, ?_⟩
    rcases hcase with ⟨rfl, hh⟩ | ⟨rfl, hh⟩
    · exact ⟨Or.inl rfl, by constructor <;> intro h <;> omega, by simp [hh]⟩
    · exact ⟨Or.inr rfl, by simp [hh], by constructor <;> intro h <;> omega⟩
  · intro hne
    obtain ⟨fix, t', e, hi, -, hcase⟩ := deletemin_balanced t hb hne
    refine ⟨fix, t', e, hi, ?_⟩
    rcases hcase with ⟨rfl, hh⟩ | ⟨rfl, hh⟩
    · exact ⟨Or.inl rfl, by constructor <;> intro h <;> omega, by simp [hh]⟩
    · exact ⟨Or.inr rfl, by simp [hh], by constructor <;> intro h <;> omega⟩
  · intro l n r hl hr hh
    rw [deletefix_pos]
    cases r with
    | nil => simp [height] at hh
    | node rl rn rb rr =>
      simp only [Balanced, height, rootbal] at hr hh ⊢
      obtain ⟨hrl, hrr, hrb, hrb3⟩ := hr
      simp only [one_ne_zero, if_false, show ¬ ((1 : Int) = -1) by decide]
      split_ifs with h3 h4 h5
      · refine ⟨0, _, rfl, fun _ => ⟨rfl, ?_⟩, fun h => absurd h3 h⟩
        simp only [height]; omega
      · refine ⟨1, _, rfl, fun h => absurd h h3, fun _ => ⟨rfl, ?_⟩⟩
        simp only [height]; omega
      · cases rl with
        | nil => simp only [height] at hrb; omega
        | node rll rln rlb rlr =>
          simp only [Balanced, height] at hrl hh hrb
          obtain ⟨hrll, hrlr, hrlb, hrlb3⟩ := hrl
          refine ⟨1, _, rfl, fun h => absurd h h3, fun _ => ⟨rfl, ?_⟩⟩
          simp only [height]; omega
      · omega
  · intro l n r hl hr hh
    rw [deletefix_neg]
    cases l with
    | nil => simp [height] at hh
    | node ll ln lb lr =>
      simp only [Balanced, height, rootbal] at hl hh ⊢
      obtain ⟨hll, hlr, hlb, hlb3⟩ := hl
      simp only [show ¬ ((-1 : Int) = 0) by decide, show ¬ ((-1 : Int) = 1) by decide, if_false]
      split_ifs with h3 h4 h5
      · refine ⟨0, _, rfl, fun _ => ⟨rfl, ?_⟩, fun h => absurd h3 h⟩
        simp only [height]; omega
      · refine ⟨1, _, rfl, fun h => absurd h h3, fun _ => ⟨rfl, ?_⟩⟩
        simp only [height]; omega
      · cases lr with
        | nil => simp only [height] at hlb; omega
        | node lrl lrn lrb lrr =>
          simp only [Balanced, height] at hlr hh hlb
          obtain ⟨hlrl, hlrr, hlrb, hlrb3⟩ := hlr
          refine ⟨1, _, rfl, fun h => absurd h h3, fun _ => ⟨rfl, ?_⟩⟩
          simp only [height]; omega
      · omega

/-- Witness for C17: deleting 10 from the five-node tree. -/
theorem delete_flag_exact_witness :
    Balanced tree5 ∧
      ∃ fix t' old', delete cmpInt tree5 10 none = some (fix, t', old') ∧ (fix = 0 ∨ fix = 1) ∧
        (fix = 1 ↔ height t' + 1 = height tree5) ∧ (fix = 0 ↔ height t' = height tree5) :=
  ⟨by simp [Balanced, height, tree5, leaf],
    (delete_flag_exact cmpInt 10 tree5 none (by simp [Balanced, height, tree5, leaf])).1⟩

/-- C20: on a tree satisfying the balance invariant no call of `avlinsert` or
`avldelete` dereferences an absent child: both complete, as do `insert` and
`delete` on every balanced subtree and `deletemin` on every non-empty one; a
non-empty subtree that grew has balance `1` or `-1` at its root, so the heavy
child that `insertfix` hands to `doublerot` has balance `-a`.  Whenever `insertfix` or `deletefix` finds balance `a`, the heavy child
`s.c[(a+1)/2]` is present, and whenever `doublerot` is entered the inner
grandchild `r.c[c^1]` of the heavy child is present. -/
theorem no_absent_child_dereferenced (t : Bsttree α) (k p : α) (hb : Balanced t.root) :
    (∃ res, avlinsert t k = some res) ∧ (∃ res, avldelete t p = some res) ∧
    (∀ (s : Bst α) (old : Option α), Balanced s →
      (∃ res, insert t.cmp s k old = some res ∧
        (res.1 ≠ 0 → s ≠ Bst.nil → rootbal res.2.1 = 1 ∨ rootbal res.2.1 = -1)) ∧
        (∃ res, delete t.cmp s p old = some res) ∧
        (s ≠ Bst.nil → ∃ res, deletemin s = some res)) ∧
    (∀ (l : Bst α) (n : α) (r : Bst α), Balanced l → Balanced r → height r = height l + 2 →
      ∃ h, getc (Bst.node l n 1 r) (Int.tdiv (1 + 1) 2) = some h ∧ h ≠ Bst.nil ∧
        (rootbal h = -1 →
          ∃ g, getc h (Int.xor (Int.tdiv (1 + 1) 2) 1) = some g ∧ g ≠ Bst.nil ∧
            ∃ s', doublerot 1 (Bst.node l n 1 r) = some s')) ∧
    (∀ (l : Bst α) (n : α) (r : Bst α), Balanced l → Balanced r → height l = height r + 2 →
      ∃ h, getc (Bst.node l n (-1) r) (Int.tdiv (-1 + 1) 2) = some h ∧ h ≠ Bst.nil ∧
        (rootbal h = 1 →
          ∃ g, getc h (Int.xor (Int.tdiv (-1 + 1) 2) 1) = some g ∧ g ≠ Bst.nil ∧
            ∃ s', doublerot (-1) (Bst.node l n (-1) r) = some s')) := by
  refine ⟨?_, ?_, ?_, ?_, ?_⟩
  · obtain ⟨fix, t', old', hi, -, -⟩ := insert_balanced t.cmp k t.root none hb
    exact ⟨_, avlinsert_of_insert t k fix t' old' hi⟩
  · obtain ⟨fix, t', old', hi, -, -⟩ := delete_balanced t.cmp p t.root none hb
    exact ⟨_, avldelete_of_delete t p fix t' old' hi⟩
  · intro s old hs
    refine ⟨?_, ?_, ?_⟩
    · obtain ⟨fix, t', old', hi, hbt, hcase⟩ := insert_balanced t.cmp k s old hs
      refine ⟨_, hi, ?_⟩
      intro hfix hne
      simp only at hfix ⊢
      rcases hcase with ⟨rfl, -⟩ | ⟨-, hh, hnz⟩
      · exact absurd rfl hfix
      · cases s with
        | nil => exact absurd rfl hne
        | node sl sn sb sr =>
          cases t' with
          | nil => simp [height] at hh
          | node l' n' b' r' =>
            obtain ⟨-, -, -, hb3⟩ := hbt
            simp only [height, rootbal] at hh hnz ⊢
            omega
    · obtain ⟨fix, t', old', hi, -, -⟩ := delete_balanced t.cmp p s old hs
      exact ⟨_, hi⟩
    · intro hne
      obtain ⟨fix, t', e, hi, -, -⟩ := deletemin_balanced s hs hne
      exact ⟨_, hi⟩
  · intro l n r hl hr hh
    cases r with
    | nil => simp [height] at hh
    | node rl rn rb rr =>
      refine ⟨_, rfl, by simp, ?_⟩
      intro hrb
      simp only [rootbal] at hrb
      obtain ⟨hrl, hrr, hrb', -⟩ := hr
      cases rl with
      | nil => simp only [height] at hrb'; omega
      | node rll rln rlb rlr => exact ⟨_, rfl, by simp, _, rfl⟩
  · intro l n r hl hr hh
    cases l with
    | nil => simp [height] at hh
    | node ll ln lb lr =>
      refine ⟨_, rfl, by simp, ?_⟩
      intro hlb
      simp only [rootbal] at hlb
      obtain ⟨hll, hlr, hlb', -⟩ := hl
      cases lr with
      | nil => simp only [height] at hlb'; omega
      | node lrl lrn lrb lrr => exact ⟨_, rfl, by simp, _, rfl⟩

/-- Witness for C20: inserting 50 into and deleting 10 from the five-node tree. -/
theorem no_absent_child_dereferenced_witness :
    Balanced (intTree tree5).root ∧
      (∃ res, avlinsert (intTree tree5) 50 = some res) ∧
      (∃ res, avldelete (intTree tree5) 10 = some res) :=
  ⟨by simp [Balanced, height, intTree, tree5, leaf],
    (no_absent_child_dereferenced (intTree tree5) 50 10
      (by simp [Balanced, height, intTree, tree5, leaf])).1,
    (no_absent_child_dereferenced (intTree tree5) 50 10
      (by simp [Balanced, height, intTree, tree5, leaf])).2.1⟩

/-! ## The height bound -/

theorem pow_div_split (x s : ℝ) (h N : ℕ) :
    (x ^ (h + 2) / s) ^ N = (x ^ N) ^ h * (x ^ 2 / s) ^ N := by
  rw [div_pow, div_pow, ← pow_mul, ← pow_mul, ← pow_mul, ← mul_div_assoc, ← pow_add]
  congr 2
  ring

theorem sq_pow_div (x s c : ℝ) (N M : ℕ) (hs : s ^ 2 = c) (hM : M = 2 * N * 2) :
    ((x ^ 2 / s) ^ N) ^ 2 = x ^ M / c ^ N := by
  rw [div_pow, div_pow, ← pow_mul, ← pow_mul, ← pow_mul, hM, ← hs, ← pow_mul]
  congr 2 <;> ring

theorem pow_bound_combine (x s a b : ℝ) (h N A B : ℕ) (n : ℝ) (hx : 0 < x) (hs : 0 < s)
    (ha : 0 ≤ a) (hb : 0 ≤ b)
    (hA : a ^ A ≤ x ^ N) (hB : b ^ B ≤ (x ^ 2 / s) ^ N) (hn : x ^ (h + 2) / s ≤ n) :
    (a ^ A) ^ h * b ^ B ≤ n ^ N := by
  have hg0 : 0 ≤ x ^ (h + 2) / s := by positivity
  calc (a ^ A) ^ h * b ^ B ≤ (x ^ N) ^ h * (x ^ 2 / s) ^ N :=
        mul_le_mul (pow_le_pow_left₀ (by positivity) hA h) hB (by positivity) (by positivity)
    _ = (x ^ (h + 2) / s) ^ N := (pow_div_split x s h N).symm
    _ ≤ n ^ N := pow_le_pow_left₀ hg0 hn N

open goldenRatio in
theorem fib_succ_le_gold_pow (n : Nat) : (Nat.fib (n + 1) : ℝ) ≤ φ ^ n := by
  cases n with
  | zero => simp
  | succ m =>
    have h := fib_golden_exp' m
    have h1 : (Nat.fib (m + 1 + 1) : ℝ) = Nat.fib m + Nat.fib (m + 1) := by
      rw [Nat.fib_add_two]; push_cast; ring
    have h2 : (0 : ℝ) ≤ Nat.fib (m + 1) := Nat.cast_nonneg _
    have h3 := one_lt_gold
    nlinarith

open goldenRatio in
theorem gold_pow_div_le_fib (m : Nat) : φ ^ m / √5 ≤ (Nat.fib m : ℝ) + 1 := by
  have h5 : (1 : ℝ) ≤ √5 := by
    rw [show (1 : ℝ) = √1 by simp]
    exact Real.sqrt_le_sqrt (by norm_num)
  have h5pos : (0 : ℝ) < √5 := by linarith
  have hfib := Real.coe_fib_eq m
  have hpsi : ψ ^ m ≤ 1 := by
    have habs : |ψ| ≤ 1 := by
      rw [abs_le]
      exact ⟨neg_one_lt_goldConj.le, by linarith [goldConj_neg]⟩
    calc ψ ^ m ≤ |ψ ^ m| := le_abs_self _
      _ = |ψ| ^ m := abs_pow _ _
      _ ≤ 1 := pow_le_one₀ (abs_nonneg _) habs
  rw [div_le_iff₀ h5pos]
  have : (Nat.fib m : ℝ) * √5 = φ ^ m - ψ ^ m := by
    rw [hfib, div_mul_cancel₀ _ h5pos.ne']
  nlinarith [(Nat.cast_nonneg (Nat.fib m) : (0 : ℝ) ≤ (Nat.fib m : ℝ))]

theorem fib_bound_a : 2 ^ 10000 ≤ Nat.fib 14406 := by
  norm_num

theorem fib_bound_b : 2 ^ 6554 * 5 ^ 14405 ≤ Nat.fib 57621 := by
  norm_num

open goldenRatio in
theorem gold_bound_a : (2 : ℝ) ^ 10000 ≤ φ ^ 14405 := by
  have h1 : ((2 ^ 10000 : ℕ) : ℝ) ≤ (Nat.fib 14406 : ℝ) := Nat.cast_le.mpr fib_bound_a
  have h2 := fib_succ_le_gold_pow 14405
  rw [Nat.cast_pow] at h1
  exact le_trans (by simpa using h1) h2

open goldenRatio in
theorem gold_bound_b : (2 : ℝ) ^ 3277 ≤ (φ ^ 2 / √5) ^ 14405 := by
  have h5pos : (0 : ℝ) < √5 := Real.sqrt_pos.mpr (by norm_num)
  have hx : (0 : ℝ) ≤ (φ ^ 2 / √5) ^ 14405 := by positivity
  have h1 : ((2 ^ 6554 * 5 ^ 14405 : ℕ) : ℝ) ≤ (Nat.fib 57621 : ℝ) :=
    Nat.cast_le.mpr fib_bound_b
  have h2 := fib_succ_le_gold_pow 57620
  have h3 : (2 : ℝ) ^ 6554 * 5 ^ 14405 ≤ φ ^ 57620 := by
    refine le_trans ?_ h2
    rw [Nat.cast_mul, Nat.cast_pow, Nat.cast_pow] at h1
    simpa using h1
  have h4 : ((φ ^ 2 / √5) ^ 14405) ^ 2 = φ ^ 57620 / 5 ^ 14405 :=
    sq_pow_div φ (√5) 5 14405 57620 (Real.sq_sqrt (by norm_num)) (by norm_num)
  have h5 : ((2 : ℝ) ^ 3277) ^ 2 ≤ ((φ ^ 2 / √5) ^ 14405) ^ 2 := by
    rw [h4, ← pow_mul, le_div_iff₀ (by positivity)]
    exact h3
  exact le_of_sq_le_sq h5 hx

/-- A balanced tree of height `h` has at least `fib (h + 2) - 1` nodes. -/
theorem fib_le_size (t : Bst α) (hb : Balanced t) :
    Nat.fib (height t + 2) ≤ (toList t).length + 1 := by
  induction t with
  | nil => simp [height, toList]
  | node l n b r ihl ihr =>
    obtain ⟨hl, hr, hbal, hb3⟩ := hb
    have h1 := ihl hl
    have h2 := ihr hr
    simp only [height, toList, List.length_append, List.length_cons]
    rcases le_total (height l) (height r) with hle | hle
    · rw [max_eq_right hle, Nat.fib_add_two]
      have hm : Nat.fib (height r + 1) ≤ Nat.fib (height l + 2) :=
        Nat.fib_mono (by omega)
      have h3 : Nat.fib (height r + 1 + 1) = Nat.fib (height r + 2) := rfl
      omega
    · rw [max_eq_left hle, Nat.fib_add_two]
      have hm : Nat.fib (height l + 1) ≤ Nat.fib (height r + 2) :=
        Nat.fib_mono (by omega)
      have h3 : Nat.fib (height l + 1 + 1) = Nat.fib (height l + 2) := rfl
      omega

open goldenRatio in
/-- The height bound in integer form: `2 ^ (10000 h + 3277) ≤ (n + 2) ^ 14405`. -/
theorem two_pow_le_size_pow (h n : Nat) (hfib : Nat.fib (h + 2) ≤ n + 1) :
    (2 : ℝ) ^ (10000 * h + 3277) ≤ ((n : ℝ) + 2) ^ 14405 := by
  have h5pos : (0 : ℝ) < √5 := Real.sqrt_pos.mpr (by norm_num)
  have hg : φ ^ (h + 2) / √5 ≤ (n : ℝ) + 2 := by
    have h1 := gold_pow_div_le_fib (h + 2)
    have h2 : (Nat.fib (h + 2) : ℝ) ≤ (n : ℝ) + 1 := by exact_mod_cast hfib
    linarith
  have hmain := pow_bound_combine φ (√5) 2 2 h 14405 10000 3277 ((n : ℝ) + 2) gold_pos h5pos
    (by norm_num) (by norm_num) gold_bound_a gold_bound_b hg
  rw [pow_add, pow_mul]
  exact hmain

theorem logb_of_pow_le (h A B N : ℕ) (x : ℝ)
    (h1 : (2 : ℝ) ^ (A * h + B) ≤ x ^ N) :
    (A : ℝ) * h + B ≤ N * Real.logb 2 x := by
  have h2 := Real.logb_le_logb_of_le (by norm_num : (1 : ℝ) < 2) (pow_pos (by norm_num) _) h1
  rw [Real.logb_pow, Real.logb_pow, Real.logb_self_eq_one (by norm_num)] at h2
  push_cast at h2
  linarith

theorem height_le_logb (t : Bst α) (hb : Balanced t) :
    (height t : ℝ) ≤ 1.4405 * Real.logb 2 (((toList t).length : ℝ) + 2) - 0.3277 := by
  have h2 := logb_of_pow_le (height t) 10000 3277 14405 _
    (two_pow_le_size_pow (height t) (toList t).length (fib_le_size t hb))
  have h3 : ((10000 : ℕ) : ℝ) = 10000 := by norm_num
  have h4 : ((3277 : ℕ) : ℝ) = 3277 := by norm_num
  have h5 : ((14405 : ℕ) : ℝ) = 14405 := by norm_num
  rw [h3, h4, h5] at h2
  linarith

theorem runOps_balanced (ops : List (Op α)) (t : Bsttree α) (hb : Balanced t.root) :
    ∃ t', runOps t ops = some t' ∧ Balanced t'.root := by
  induction ops generalizing t with
  | nil => exact ⟨t, rfl, hb⟩
  | cons op ops ih =>
    cases op with
    | ins k =>
      obtain ⟨fix, r', old', hi, hb', -⟩ := insert_balanced t.cmp k t.root none hb
      obtain ⟨t', ht', hbt'⟩ := ih { t with root := r' } hb'
      exact ⟨t', by simp only [runOps, avlinsert_of_insert t k fix r' old' hi, ht'], hbt'⟩
    | del k =>
      obtain ⟨fix, r', old', hi, hb', -⟩ := delete_balanced t.cmp k t.root none hb
      obtain ⟨t', ht', hbt'⟩ := ih { t with root := r' } hb'
      exact ⟨t', by simp only [runOps, avldelete_of_delete t k fix r' old' hi, ht'], hbt'⟩

/-- Every sequence of `avlinsert` and `avldelete` calls on an ordered and
balanced tree completes and leaves an ordered and balanced tree: the trees the
library can hold satisfy both invariants. -/
theorem runOps_invariant (ops : List (Op α)) (t : Bsttree α) (hc : TotalOrder t.cmp)
    (ho : Ordered t.cmp t.root) (hb : Balanced t.root) :
    ∃ t', runOps t ops = some t' ∧ t'.cmp = t.cmp ∧ Ordered t.cmp t'.root ∧
      Balanced t'.root := by
  induction ops generalizing t with
  | nil => exact ⟨t, rfl, rfl, ho, hb⟩
  | cons op ops ih =>
    cases op with
    | ins k =>
      obtain ⟨fix, r', old', hi, hb', -⟩ := insert_balanced t.cmp k t.root none hb
      have hs := (insert_spec t.cmp hc k t.root none _ ho hi).1
      simp only at hs
      have ho' : Ordered t.cmp r' := by
        unfold Ordered
        rw [hs]
        exact pairwise_insert t.cmp hc k _ ho
      obtain ⟨t', ht', hcmp, hot', hbt'⟩ := ih { t with root := r' } hc ho' hb'
      exact ⟨t', by simp only [runOps, avlinsert_of_insert t k fix r' old' hi, ht'],
        hcmp, hot', hbt'⟩
    | del k =>
      obtain ⟨fix, r', old', hi, hb', -⟩ := delete_balanced t.cmp k t.root none hb
      have hs := (delete_spec t.cmp hc k t.root none _ ho hi).1
      simp only at hs
      have ho' : Ordered t.cmp r' := by
        unfold Ordered
        rw [hs]
        exact List.Pairwise.filter _ ho
      obtain ⟨t', ht', hcmp, hot', hbt'⟩ := ih { t with root := r' } hc ho' hb'
      exact ⟨t', by simp only [runOps, avldelete_of_delete t k fix r' old' hi, ht'],
        hcmp, hot', hbt'⟩

/-- C14: every tree satisfying the balance invariant, with `n` nodes and height
`h` (empty tree 0, single node 1), has `h ≤ 1.4405 * log₂ (n + 2) - 0.3277`; every
sequence of `avlinsert` and `avldelete` calls from the empty tree completes and
ends in such a tree. -/
theorem height_bound (cmp : α → α → Int) (ops : List (Op α)) (t : Bst α) :
    (Balanced t →
      (height t : ℝ) ≤ 1.4405 * Real.logb 2 (((toList t).length : ℝ) + 2) - 0.3277) ∧
    ∃ t', runOps (bstcreateavl cmp) ops = some t' ∧ Balanced t'.root ∧
      (height t'.root : ℝ) ≤
        1.4405 * Real.logb 2 (((toList t'.root).length : ℝ) + 2) - 0.3277 := by
  refine ⟨height_le_logb t, ?_⟩
  obtain ⟨t', ht', hb'⟩ := runOps_balanced ops (bstcreateavl cmp) trivial
  exact ⟨t', ht', hb', height_le_logb t'.root hb'⟩

/-- Witness for C14: the five-node tree has height 3. -/
theorem height_bound_witness :
    Balanced tree5 ∧
      (height tree5 : ℝ) ≤ 1.4405 * Real.logb 2 (((toList tree5).length : ℝ) + 2) - 0.3277 :=
  ⟨by simp [Balanced, height, tree5, leaf],
    (height_bound cmpInt [] tree5).1 (by simp [Balanced, height, tree5, leaf])⟩

end Avl
